import Mathlib

/-!
# Verification of the `node_reqwest` version pipeline (`packages/meta`)

Shallow embedding of the version-resolution-and-synchronization core:

* `Version::parse` / `Display for Version` (`packages/meta/src/lib.rs`),
* the git fallback ladder `get_version` (`packages/meta/build.rs`),
* the manifest synchronizer `npm_version` (`packages/meta/src/lib.rs`)
  together with a model of `serde_json`'s `from_str` / `to_string_pretty`
  (`preserve_order` feature, i.e. order-keeping maps),
* the Windows resource embedder `cdylib_win_rc` (`packages/meta/src/lib.rs`),
* the argument-less `npm_version` binary (`packages/meta/src/bin/npm_version.rs`).

Machine integers (`u64`) are modelled as `Nat` with explicit reduction
modulo `2 ^ 64` where the source performs `u64` arithmetic.  Strings are
modelled at the character level (`List Char`), and `Version::parse`, which
walks `s.as_bytes()`, at the code-unit level (`List Nat`); all inputs the
claims mention are ASCII, where the two coincide byte-for-byte.
-/

/-- The modulus of Rust's `u64` component type. -/
def U64 : Nat := 2 ^ 64

/-- Character codes of a Lean string (for ASCII strings these are exactly
the UTF-8 bytes that Rust's `s.as_bytes()` yields). -/
def strBytes (s : String) : List Nat := s.data.map Char.toNat

/-- Rust's `struct Version` with three `u64` fields
(`packages/meta/src/lib.rs`, lines 20-29). -/
structure Version where
  major : Nat
  minor : Nat
  patch : Nat
deriving DecidableEq, Repr

/-- The `while` loop of `Version::parse` (`lib.rs` lines 60-69) followed by
the final `segment != 2` check (lines 71-73): walks the remaining bytes with
the three accumulators `version[0..3]` and the current `segment` index.
A `u64` accumulation step is reduced modulo `2 ^ 64`. -/
def parseGo : List Nat → Nat → Nat → Nat → Nat → Option Version
  | [], v0, v1, v2, seg => if seg = 2 then some ⟨v0, v1, v2⟩ else none
  | b :: rest, v0, v1, v2, seg =>
    if 3 ≤ seg then none
    else if b = 46 then parseGo rest v0 v1 v2 (seg + 1)
    else if b < 48 ∨ 57 < b then none
    else if seg = 0 then parseGo rest ((v0 * 10 + (b - 48)) % U64) v1 v2 seg
    else if seg = 1 then parseGo rest v0 ((v1 * 10 + (b - 48)) % U64) v2 seg
    else parseGo rest v0 v1 ((v2 * 10 + (b - 48)) % U64) seg

/-- Model of `Version::parse` (`lib.rs` lines 50-80): reject when fewer than 6 bytes
or the first byte is not `b'v'` (118), then run the segment loop. -/
def Version.parse (bs : List Nat) : Option Version :=
  match bs with
  | [] => none
  | b :: rest =>
    if 1 + rest.length < 6 ∨ b ≠ 118 then none else parseGo rest 0 0 0 0

/-- Fuel-indexed helper computing decimal digits most significant first;
the fuel is structural so that the kernel can evaluate it. -/
def decDigitsAux : Nat → Nat → List Nat
  | 0, _ => []
  | fuel + 1, n => if n < 10 then [n] else decDigitsAux fuel (n / 10) ++ [n % 10]

/-- Decimal digits of `n`, most significant first (`[0]` for `0`): the
digit sequence that Rust's `u64` `Display` implementation emits. -/
def decDigits (n : Nat) : List Nat := decDigitsAux (n + 1) n

/-- Digits rendered as ASCII byte values. -/
def digitsToBytes (ds : List Nat) : List Nat := ds.map (fun d => d + 48)

/-- Digits rendered as characters. -/
def digitsToChars (ds : List Nat) : List Char := ds.map (fun d => Char.ofNat (d + 48))

/-- Plain decimal accumulation, `value = value * 10 + digit` left to right. -/
def pureAccum (v : Nat) (ds : List Nat) : Nat := ds.foldl (fun a d => a * 10 + d) v

/-- Decimal accumulation with each step reduced modulo `2 ^ 64`, the `u64`
accumulation of `Version::parse`. -/
def accum (v : Nat) (ds : List Nat) : Nat := ds.foldl (fun a d => (a * 10 + d) % U64) v

/-- Model of `impl fmt::Display for Version` (`lib.rs` lines 31-35):
`write!(f, "{}.{}.{}", major, minor, patch)`. -/
def Version.display (v : Version) : List Char :=
  digitsToChars (decDigits v.major) ++ [ '.' ] ++
    digitsToChars (decDigits v.minor) ++ [ '.' ] ++ digitsToChars (decDigits v.patch)

/-! ## The git fallback ladder (`packages/meta/build.rs`)

`build.rs` shells out to `git`.  Each `Command` invocation is modelled by a
`CmdOutcome`: whether `output()`/`status()` returned `Ok` at all (`ran`),
whether the exit status was success (`exitOk`), and the raw stdout bytes.
The filesystem facts consulted by `rerun_if_git_ref_changed` are further
fields of the world. -/

/-- Outcome of one external `git` invocation. -/
structure CmdOutcome where
  ran : Bool
  exitOk : Bool
  stdout : List Nat

/-- UTF-8 decoding of a byte list, the model of `String::from_utf8`:
rejects stray or missing continuation bytes, overlong encodings,
surrogate code points and values above `0x10FFFF`. -/
def utf8Decode : List Nat → Option (List Char)
  | [] => some []
  | b :: rest =>
    if b < 0x80 then (utf8Decode rest).map (fun cs => Char.ofNat b :: cs)
    else if b < 0xC0 then none
    else if b < 0xE0 then
      match rest with
      | b1 :: rest2 =>
        if 0x80 ≤ b1 ∧ b1 < 0xC0 then
          let cp := (b - 0xC0) * 64 + (b1 - 0x80)
          if cp < 0x80 then none
          else (utf8Decode rest2).map (fun cs => Char.ofNat cp :: cs)
        else none
      | _ => none
    else if b < 0xF0 then
      match rest with
      | b1 :: b2 :: rest2 =>
        if (0x80 ≤ b1 ∧ b1 < 0xC0) ∧ (0x80 ≤ b2 ∧ b2 < 0xC0) then
          let cp := (b - 0xE0) * 4096 + (b1 - 0x80) * 64 + (b2 - 0x80)
          if cp < 0x800 ∨ (0xD800 ≤ cp ∧ cp < 0xE000) then none
          else (utf8Decode rest2).map (fun cs => Char.ofNat cp :: cs)
        else none
      | _ => none
    else if b < 0xF8 then
      match rest with
      | b1 :: b2 :: b3 :: rest2 =>
        if (0x80 ≤ b1 ∧ b1 < 0xC0) ∧ (0x80 ≤ b2 ∧ b2 < 0xC0) ∧
            (0x80 ≤ b3 ∧ b3 < 0xC0) then
          let cp := (b - 0xF0) * 262144 + (b1 - 0x80) * 4096 + (b2 - 0x80) * 64 + (b3 - 0x80)
          if cp < 0x10000 ∨ 0x110000 ≤ cp then none
          else (utf8Decode rest2).map (fun cs => Char.ofNat cp :: cs)
        else none
      | _ => none
    else none

/-- Rust's `char::is_whitespace`: the Unicode `White_Space` property. -/
def isRustWhitespace (c : Char) : Bool :=
  decide ((9 ≤ c.toNat ∧ c.toNat ≤ 13) ∨ c.toNat = 32 ∨ c.toNat = 0x85 ∨
    c.toNat = 0xA0 ∨ c.toNat = 0x1680 ∨ (0x2000 ≤ c.toNat ∧ c.toNat ≤ 0x200A) ∨
    c.toNat = 0x2028 ∨ c.toNat = 0x2029 ∨ c.toNat = 0x202F ∨ c.toNat = 0x205F ∨
    c.toNat = 0x3000)

/-- Rust's `str::trim`: strip leading and trailing whitespace. -/
def trimChars (cs : List Char) : List Char :=
  ((cs.dropWhile isRustWhitespace).reverse.dropWhile isRustWhitespace).reverse

/-- The shared shape of `git_branch_show_current`, `git_describe_tags` and
`git_rev_parse_commit_hash` (`build.rs`): a run failure is an error with
the given context message, a non-zero exit is `Ok(None)`, undecodable
stdout is the error `"valid UTF-8"`, and otherwise the trimmed output is
returned, with the empty string mapped to `Ok(None)`. -/
def queryOutput (cmd : CmdOutcome) (runFailMsg : String) :
    Except String (Option (List Char)) :=
  if cmd.ran = false then .error runFailMsg
  else if cmd.exitOk = false then .ok none
  else
    match utf8Decode cmd.stdout with
    | none => .error "valid UTF-8"
    | some s =>
      let t := trimChars s
      if t = [] then .ok none else .ok (some t)

/-- Model of `git_branch_show_current` (`build.rs` lines 18-39). -/
def git_branch_show_current (cmd : CmdOutcome) : Except String (Option (List Char)) :=
  queryOutput cmd "Failed to run `git branch --show-current`"

/-- Model of `git_describe_tags` (`build.rs` lines 67-88). -/
def git_describe_tags (cmd : CmdOutcome) : Except String (Option (List Char)) :=
  queryOutput cmd "Failed to run `git describe --tags`"

/-- Model of `git_rev_parse_commit_hash` (`build.rs` lines 90-112). -/
def git_rev_parse_commit_hash (cmd : CmdOutcome) : Except String (Option (List Char)) :=
  queryOutput cmd "Failed to run `git rev-parse --short HEAD^{commit}`"

/-- The world a `build.rs` run observes: the four `git` invocations and
the three filesystem existence checks of `rerun_if_git_ref_changed`. -/
structure GitWorld where
  status : CmdOutcome
  branchCmd : CmdOutcome
  describeCmd : CmdOutcome
  revParseCmd : CmdOutcome
  headExists : Bool
  branchRefExists : List Char → Bool
  tagsExists : Bool

/-- Model of `valid_git_repo` (`build.rs` lines 14-16):
`matches!(Command::new("git").arg("status").status(), Ok(s) if s.success())`. -/
def valid_git_repo (w : GitWorld) : Bool := w.status.ran && w.status.exitOk

/-- Model of `rerun_if_git_ref_changed` (`build.rs` lines 41-65): emits
`cargo:rerun-if-changed` directives (returned here as the list of paths)
for `.git/HEAD`, the current branch ref and the tags directory; a failure
of the branch query propagates via `?`. -/
def rerun_if_git_ref_changed (w : GitWorld) : Except String (List String) :=
  let d1 : List String := if w.headExists then ["../../.git/HEAD"] else []
  match git_branch_show_current w.branchCmd with
  | .error e => .error e
  | .ok current =>
    let d2 : List String :=
      match current with
      | some branch =>
        if w.branchRefExists branch then
          ["../../.git/refs/heads/" ++ String.mk branch]
        else []
      | none => []
    let d3 : List String := if w.tagsExists then ["../../.git/refs/tags"] else []
    .ok (d1 ++ d2 ++ d3)

/-- The sentinel `"undefined"` of `get_version`. -/
def undefinedStr : List Char := "undefined".data

/-- Model of `get_version` (`build.rs` lines 114-125): the fallback ladder. -/
def get_version (w : GitWorld) : Except String (List Char) :=
  if valid_git_repo w then
    match rerun_if_git_ref_changed w with
    | .error e => .error e
    | .ok _ =>
      match git_describe_tags w.describeCmd with
      | .error e => .error e
      | .ok (some tag) => .ok tag
      | .ok none =>
        match git_rev_parse_commit_hash w.revParseCmd with
        | .error e => .error e
        | .ok (some hash) => .ok hash
        | .ok none => .ok undefinedStr
  else .ok undefinedStr

/-- Rust's `Result::is_ok`. -/
def exceptIsOk {ε α : Type} : Except ε α → Bool
  | .ok _ => true
  | .error _ => false

instance {ε α : Type} [DecidableEq ε] [DecidableEq α] : DecidableEq (Except ε α) :=
  fun x y =>
    match x, y with
    | .ok a, .ok b =>
      if h : a = b then isTrue (by rw [h]) else isFalse (by intro hh; cases hh; exact h rfl)
    | .ok _, .error _ => isFalse (by intro hh; cases hh)
    | .error _, .ok _ => isFalse (by intro hh; cases hh)
    | .error e, .error f =>
      if h : e = f then isTrue (by rw [h]) else isFalse (by intro hh; cases hh; exact h rfl)

/-- A successful `git` invocation printing the given ASCII stdout. -/
def okCmd (out : List Nat) : CmdOutcome := ⟨true, true, out⟩

/-- World for the C3 counterexample: the repository probe and the describe
query succeed (the tag `v1.0.0` is available), but the bookkeeping's
branch query fails to run. -/
def c3World : GitWorld where
  status := okCmd []
  branchCmd := ⟨false, false, []⟩
  describeCmd := okCmd [118, 49, 46, 48, 46, 48, 10]
  revParseCmd := okCmd []
  headExists := false
  branchRefExists := fun _ => false
  tagsExists := false

/-- World for the C3 witness: the repository probe fails. -/
def c3NoRepoWorld : GitWorld where
  status := ⟨false, false, []⟩
  branchCmd := okCmd []
  describeCmd := okCmd []
  revParseCmd := okCmd []
  headExists := false
  branchRefExists := fun _ => false
  tagsExists := false

/-- World for the C4 counterexample: the branch query exits successfully
but prints the lone byte `0xFF`, which is not valid UTF-8. -/
def c4World : GitWorld where
  status := okCmd []
  branchCmd := okCmd [255]
  describeCmd := okCmd [118, 49, 46, 48, 46, 48, 10]
  revParseCmd := okCmd []
  headExists := false
  branchRefExists := fun _ => false
  tagsExists := false

/-- World for the C4 witness: every query behaves, a tag is found. -/
def c4GoodWorld : GitWorld where
  status := okCmd []
  branchCmd := okCmd [109, 97, 105, 110, 10]
  describeCmd := okCmd [118, 49, 46, 48, 46, 48, 10]
  revParseCmd := okCmd [99, 50, 52, 102, 57, 50, 53, 10]
  headExists := true
  branchRefExists := fun _ => true
  tagsExists := true

/-! ## A model of `serde_json` documents (`preserve_order` feature)

`npm_version` round-trips the manifest through `serde_json::Value`.  The
document is modelled by the mutual inductive below; objects are ordered
key-value sequences, as under the `preserve_order` feature (an
`IndexMap`).  Numbers are modelled as integers: the numeric payload is
irrelevant to every claim (values are only carried through), and neither
floats nor number syntax beyond an optional sign and digits is modelled. -/

mutual
inductive JValue where
  | null : JValue
  | bool : Bool → JValue
  | num : Int → JValue
  | str : List Char → JValue
  | arr : JElems → JValue
  | obj : JMembers → JValue
inductive JElems where
  | nil : JElems
  | cons : JValue → JElems → JElems
inductive JMembers where
  | nil : JMembers
  | cons : List Char → JValue → JMembers → JMembers
end

/-- Does the ordered map contain the key? -/
def JMembers.hasKey : JMembers → List Char → Bool
  | .nil, _ => false
  | .cons k _ rest, key => if k = key then true else rest.hasKey key

/-- First (and, for parsed documents, only) value bound to a key. -/
def JMembers.get? : JMembers → List Char → Option JValue
  | .nil, _ => none
  | .cons k v rest, key => if k = key then some v else rest.get? key

/-- The keys, in order. -/
def JMembers.keys : JMembers → List (List Char)
  | .nil => []
  | .cons k _ rest => k :: rest.keys

/-- Model of `IndexMap::insert` under `preserve_order`: an existing key keeps its
position and gets the new value; a fresh key is appended at the end. -/
def JMembers.insert : JMembers → List Char → JValue → JMembers
  | .nil, key, val => .cons key val .nil
  | .cons k v rest, key, val =>
    if k = key then .cons k val rest else .cons k v (rest.insert key val)

/-- Concatenation of two ordered maps. -/
def JMembers.append : JMembers → JMembers → JMembers
  | .nil, ms => ms
  | .cons k v rest, ms => .cons k v (rest.append ms)

/-- Fold `insert` over the members of the second map, in order — how the
object parser accumulates members. -/
def JMembers.insertAll : JMembers → JMembers → JMembers
  | acc, .nil => acc
  | acc, .cons k v rest => JMembers.insertAll (acc.insert k v) rest

mutual
/-- Well-formedness: every object in the document has pairwise distinct
keys (true of every document `serde_json` produces by parsing). -/
def JValue.wfB : JValue → Bool
  | .null => true
  | .bool _ => true
  | .num _ => true
  | .str _ => true
  | .arr xs => xs.wfBE
  | .obj kvs => kvs.wfBM
def JElems.wfBE : JElems → Bool
  | .nil => true
  | .cons v rest => v.wfB && rest.wfBE
def JMembers.wfBM : JMembers → Bool
  | .nil => true
  | .cons k v rest => !rest.hasKey k && v.wfB && rest.wfBM
end

/-- Lowercase hexadecimal digit. -/
def hexDigit (n : Nat) : Char :=
  if n < 10 then Char.ofNat (n + 48) else Char.ofNat (n + 87)

/-- Model of `serde_json` escaping of one character inside a string literal:
quote and backslash are escaped, controls below `0x20` take their short
escapes or a `\u00xx` escape, everything else is emitted as-is. -/
def escapeChar (c : Char) : List Char :=
  if c = '"' then ['\\', '"']
  else if c = '\\' then ['\\', '\\']
  else if c.toNat = 8 then ['\\', 'b']
  else if c.toNat = 9 then ['\\', 't']
  else if c.toNat = 10 then ['\\', 'n']
  else if c.toNat = 12 then ['\\', 'f']
  else if c.toNat = 13 then ['\\', 'r']
  else if c.toNat < 32 then
    ['\\', 'u', '0', '0', hexDigit (c.toNat / 16), hexDigit (c.toNat % 16)]
  else [c]

/-- A JSON string literal: quote, escaped body, quote. -/
def quoteStr (cs : List Char) : List Char :=
  '"' :: (cs.map escapeChar).flatten ++ ['"']

/-- Decimal rendering of an integer. -/
def intChars (n : Int) : List Char :=
  if n < 0 then '-' :: digitsToChars (decDigits n.natAbs)
  else digitsToChars (decDigits n.natAbs)

/-- Two spaces per indentation level, `serde_json`'s pretty default. -/
def indentChars (ind : Nat) : List Char := List.replicate (2 * ind) ' '

/-- The character `{`. -/
def lbrace : Char := Char.ofNat 123

/-- The character `}`. -/
def rbrace : Char := Char.ofNat 125

mutual
/-- Model of `serde_json::to_string_pretty` at an indentation level: arrays and
objects spread one entry per line, indented two spaces per level; empty
containers print on one line. -/
def serializeVal : Nat → JValue → List Char
  | _, .null => ['n', 'u', 'l', 'l']
  | _, .bool true => ['t', 'r', 'u', 'e']
  | _, .bool false => ['f', 'a', 'l', 's', 'e']
  | _, .num n => intChars n
  | _, .str s => quoteStr s
  | _, .arr .nil => ['[', ']']
  | ind, .arr (.cons v rest) =>
    '[' :: '\n' :: (indentChars (ind + 1) ++ serializeVal (ind + 1) v ++
      serializeElems (ind + 1) rest ++ '\n' :: (indentChars ind ++ [']']))
  | _, .obj .nil => [lbrace, rbrace]
  | ind, .obj (.cons k v rest) =>
    lbrace :: '\n' :: (indentChars (ind + 1) ++ quoteStr k ++ ':' :: ' ' ::
      (serializeVal (ind + 1) v ++ serializeMembers (ind + 1) rest ++
        '\n' :: (indentChars ind ++ [rbrace])))
/-- The second and later array elements: `",\n" ++ indent ++ element`. -/
def serializeElems : Nat → JElems → List Char
  | _, .nil => []
  | ind, .cons v rest =>
    ',' :: '\n' :: (indentChars ind ++ serializeVal ind v ++ serializeElems ind rest)
/-- The second and later object members: `",\n" ++ indent ++ key ++ ": " ++ value`. -/
def serializeMembers : Nat → JMembers → List Char
  | _, .nil => []
  | ind, .cons k v rest =>
    ',' :: '\n' :: (indentChars ind ++ quoteStr k ++ ':' :: ' ' ::
      (serializeVal ind v ++ serializeMembers ind rest))
end

/-- Model of `serde_json::to_string_pretty` on a whole document. -/
def to_string_pretty (j : JValue) : List Char := serializeVal 0 j

/-! ## A model of `serde_json::from_str`

A recursive-descent parser over characters, mirroring `serde_json`'s
grammar on the documents of the model: the four JSON whitespace
characters are skipped between tokens, strings undo the escaping above
(lone surrogate escapes are rejected; surrogate-pair decoding, which the
serializer never emits, is not modelled), numbers are an optional minus
followed by digits (fractions, exponents and `serde_json`'s leading-zero
restriction are outside the model), and duplicate object keys are
resolved like `IndexMap::insert`: first position, last value.  Recursion
is bounded by a fuel argument; the top-level entry point supplies fuel
that is always sufficient (more than the input length). -/

/-- Is the character JSON whitespace (space, newline, carriage return, tab)? -/
def isJsonWs (c : Char) : Bool :=
  c = ' ' || c = '\n' || c = '\r' || c = '\t'

/-- Skip JSON whitespace. -/
def skipWs (cs : List Char) : List Char := cs.dropWhile isJsonWs

/-- Is the character an ASCII digit? -/
def isDigitCh (c : Char) : Bool := decide (48 ≤ c.toNat ∧ c.toNat ≤ 57)

/-- Longest digit run at the head, as digit values, plus the remainder. -/
def takeDigits : List Char → List Nat × List Char
  | [] => ([], [])
  | c :: rest =>
    if isDigitCh c then
      let p := takeDigits rest
      ((c.toNat - 48) :: p.1, p.2)
    else ([], c :: rest)

/-- Parse an integer: optional minus sign, then at least one digit. -/
def parseIntToken (cs : List Char) : Option (Int × List Char) :=
  match cs with
  | [] => none
  | c :: rest =>
    if c = '-' then
      match takeDigits rest with
      | ([], _) => none
      | (ds, r) => some (-(Int.ofNat (pureAccum 0 ds)), r)
    else
      match takeDigits (c :: rest) with
      | ([], _) => none
      | (ds, r) => some (Int.ofNat (pureAccum 0 ds), r)

/-- Does the input avoid starting with a digit (so that a number token
ending right before it cannot absorb it)? -/
def noLeadingDigit : List Char → Bool
  | [] => true
  | c :: _ => !isDigitCh c

/-- Value of a hexadecimal digit character. -/
def hexVal (c : Char) : Option Nat :=
  if 48 ≤ c.toNat ∧ c.toNat ≤ 57 then some (c.toNat - 48)
  else if 97 ≤ c.toNat ∧ c.toNat ≤ 102 then some (c.toNat - 87)
  else if 65 ≤ c.toNat ∧ c.toNat ≤ 70 then some (c.toNat - 55)
  else none

/-- Combine four hexadecimal digit characters into a code point. -/
def hexQuad (h1 h2 h3 h4 : Char) : Option Nat :=
  match hexVal h1, hexVal h2, hexVal h3, hexVal h4 with
  | some a, some b, some c, some d => some (a * 4096 + b * 256 + c * 16 + d)
  | _, _, _, _ => none

/-- Parse a string body after the opening quote, undoing escapes, up to
and including the closing quote; returns the content and the remainder.
Lone surrogate escapes are rejected; raw control characters are
rejected, as `serde_json` does. -/
def parseStrBody : List Char → Option (List Char × List Char)
  | [] => none
  | '\\' :: 'u' :: h1 :: h2 :: h3 :: h4 :: rest =>
    match hexQuad h1 h2 h3 h4 with
    | none => none
    | some cp =>
      if 0xD800 ≤ cp ∧ cp < 0xE000 then none
      else (parseStrBody rest).map (fun p => (Char.ofNat cp :: p.1, p.2))
  | '\\' :: e :: rest =>
    if e = '"' then (parseStrBody rest).map (fun p => ('"' :: p.1, p.2))
    else if e = '\\' then (parseStrBody rest).map (fun p => ('\\' :: p.1, p.2))
    else if e = '/' then (parseStrBody rest).map (fun p => ('/' :: p.1, p.2))
    else if e = 'b' then (parseStrBody rest).map (fun p => (Char.ofNat 8 :: p.1, p.2))
    else if e = 't' then (parseStrBody rest).map (fun p => ('\t' :: p.1, p.2))
    else if e = 'n' then (parseStrBody rest).map (fun p => ('\n' :: p.1, p.2))
    else if e = 'f' then (parseStrBody rest).map (fun p => (Char.ofNat 12 :: p.1, p.2))
    else if e = 'r' then (parseStrBody rest).map (fun p => ('\r' :: p.1, p.2))
    else none
  | ['\\'] => none
  | c :: rest =>
    if c = '"' then some ([], rest)
    else if c.toNat < 32 then none
    else (parseStrBody rest).map (fun p => (c :: p.1, p.2))

mutual
/-- Parse one JSON value after skipping leading whitespace. -/
def parseVal : Nat → List Char → Option (JValue × List Char)
  | 0, _ => none
  | fuel + 1, cs =>
    match skipWs cs with
    | [] => none
    | c :: rest =>
      if c = 'n' then
        match rest with
        | 'u' :: 'l' :: 'l' :: r => some (.null, r)
        | _ => none
      else if c = 't' then
        match rest with
        | 'r' :: 'u' :: 'e' :: r => some (.bool true, r)
        | _ => none
      else if c = 'f' then
        match rest with
        | 'a' :: 'l' :: 's' :: 'e' :: r => some (.bool false, r)
        | _ => none
      else if c = '"' then
        (parseStrBody rest).map (fun p => (.str p.1, p.2))
      else if c = '[' then
        match skipWs rest with
        | [] => none
        | d :: r2 =>
          if d = ']' then some (.arr .nil, r2)
          else
            match parseVal fuel (d :: r2) with
            | none => none
            | some (v, r3) =>
              match parseArrRest fuel r3 with
              | none => none
              | some (es, r4) => some (.arr (.cons v es), r4)
      else if c = lbrace then
        match skipWs rest with
        | [] => none
        | d :: r2 =>
          if d = rbrace then some (.obj .nil, r2)
          else if d = '"' then
            match parseStrBody r2 with
            | none => none
            | some (k, r3) =>
              match skipWs r3 with
              | [] => none
              | e :: r4 =>
                if e = ':' then
                  match parseVal fuel r4 with
                  | none => none
                  | some (v, r5) =>
                  (parseObjRest fuel (JMembers.cons k v .nil) r5).map
                    (fun p => (JValue.obj p.1, p.2))
                else none
          else none
      else if c = '-' || isDigitCh c then
        (parseIntToken (c :: rest)).map (fun p => (.num p.1, p.2))
      else none
/-- After the first array element: `,` then a value, repeatedly, then `]`. -/
def parseArrRest : Nat → List Char → Option (JElems × List Char)
  | 0, _ => none
  | fuel + 1, cs =>
    match skipWs cs with
    | [] => none
    | c :: rest =>
      if c = ']' then some (.nil, rest)
      else if c = ',' then
        match parseVal fuel rest with
        | none => none
        | some (v, r2) =>
          match parseArrRest fuel r2 with
          | none => none
          | some (es, r3) => some (.cons v es, r3)
      else none
/-- After the first object member: `,` then a member, repeatedly, then
the closing brace; members accumulate with `IndexMap::insert`. -/
def parseObjRest : Nat → JMembers → List Char → Option (JMembers × List Char)
  | 0, _, _ => none
  | fuel + 1, acc, cs =>
    match skipWs cs with
    | [] => none
    | c :: rest =>
      if c = rbrace then some (acc, rest)
      else if c = ',' then
        match skipWs rest with
        | [] => none
        | d :: r2 =>
          if d = '"' then
            match parseStrBody r2 with
            | none => none
            | some (k, r3) =>
              match skipWs r3 with
              | [] => none
              | e :: r4 =>
                if e = ':' then
                  match parseVal fuel r4 with
                  | none => none
                  | some (v, r5) => parseObjRest fuel (acc.insert k v) r5
                else none
          else none
      else none
end

/-- Model of `serde_json::from_str` on a whole input: parse one value with ample
fuel, then allow only trailing whitespace. -/
def parseJson (cs : List Char) : Option JValue :=
  match parseVal (cs.length + 1) cs with
  | some (v, rest) => if skipWs rest = [] then some v else none
  | none => none

mutual
/-- Fuel sufficient for `parseVal` on the serialization of a value. -/
def JValue.needFuel : JValue → Nat
  | .null => 1
  | .bool _ => 1
  | .num _ => 1
  | .str _ => 1
  | .arr .nil => 1
  | .arr (.cons v es) => 1 + v.needFuel + es.needFuelE
  | .obj .nil => 1
  | .obj (.cons _ v ms) => 1 + v.needFuel + ms.needFuelM
/-- Fuel sufficient for `parseArrRest` on serialized trailing elements. -/
def JElems.needFuelE : JElems → Nat
  | .nil => 1
  | .cons v es => 1 + v.needFuel + es.needFuelE
/-- Fuel sufficient for `parseObjRest` on serialized trailing members. -/
def JMembers.needFuelM : JMembers → Nat
  | .nil => 1
  | .cons _ v ms => 1 + v.needFuel + ms.needFuelM
end

/-! ## `npm_version` (`packages/meta/src/lib.rs` lines 88-108)

The filesystem is a world: the result of `read_to_string("package.json")`
(`none` models a read failure) and whether the write succeeds.  The
function returns the error message of the failing stage, or the bytes
written back.  The source's fourth stage, `to_string_pretty`'s own error,
cannot occur for a `serde_json::Value` (its keys are strings and its
numbers finite), so serialization is total here. -/

/-- The observable filesystem behaviour during one `npm_version` call. -/
structure FsWorld where
  readRes : Option (List Char)
  writeOk : Bool

/-- The key `"version"`. -/
def versionKey : List Char := ['v', 'e', 'r', 's', 'i', 'o', 'n']

/-- Model of `npm_version`: read `package.json`, parse it, overwrite the
`"version"` key when the document is an object (any other document is
passed through unchanged), re-serialize pretty, append a newline, write. -/
def npm_version (v : Version) (w : FsWorld) : Except String (List Char) :=
  match w.readRes with
  | none => .error "Failed to read package.json"
  | some content =>
    match parseJson content with
    | none => .error "Failed to parse package.json"
    | some json =>
      let json2 :=
        match json with
        | .obj kvs => JValue.obj (kvs.insert versionKey (.str (Version.display v)))
        | other => other
      let newContent := to_string_pretty json2 ++ [ '\n' ]
      if w.writeOk then .ok newContent else .error "Failed to write package.json"

/-- Model of `main` of the `npm_version` binary
(`packages/meta/src/bin/npm_version.rs` lines 9-13):
`npm_version(&SEMVER.unwrap_or_default())`, where `Version::default()`
is `Version{0, 0, 0}` (all-zero `u64` fields). -/
def npm_version_main (semver : Option Version) (w : FsWorld) : Except String (List Char) :=
  npm_version (semver.getD ⟨0, 0, 0⟩) w

/-- Does `pat` occur at the head of `hay`? -/
def matchesAt : List Char → List Char → Bool
  | [], _ => true
  | _ :: _, [] => false
  | p :: ps, h :: hs => p = h && matchesAt ps hs

/-- Substring occurrence test. -/
def strContains (hay pat : List Char) : Bool :=
  match hay with
  | [] => pat.isEmpty
  | _ :: rest => matchesAt pat hay || strContains rest pat

/-! ## `cdylib_win_rc` (`packages/meta/src/lib.rs` lines 118-163)

The `tauri_winres::WindowsResource` builder is modelled as a record of
the language, the numeric version-info fields and the string properties;
`set_version_info` / `set` are keyed updates.  The build environment
carries the `cfg!(target_env = "msvc")` flag, the `CARGO_PKG_NAME`
variable, the current UTC year (`chrono::Utc::now().year()`) and whether
`res.compile()` succeeds. -/

/-- The `tauri_winres::VersionInfo` keys used by the source. -/
inductive VIKey where
  | FILEVERSION
  | PRODUCTVERSION
  | FILEFLAGSMASK
  | FILEFLAGS
  | FILEOS
  | FILETYPE
  | FILESUBTYPE
deriving DecidableEq, Repr

/-- Keyed update in an association list: replace in place or append. -/
def upsertAssoc {α β : Type} [DecidableEq α] : List (α × β) → α → β → List (α × β)
  | [], k, v => [(k, v)]
  | (k', v') :: rest, k, v =>
    if k' = k then (k, v) :: rest else (k', v') :: upsertAssoc rest k v

/-- First value bound to a key in an association list. -/
def lookupAssoc {α β : Type} [DecidableEq α] : List (α × β) → α → Option β
  | [], _ => none
  | (k', v') :: rest, k => if k' = k then some v' else lookupAssoc rest k

/-- The state of a `tauri_winres::WindowsResource` builder. -/
structure WindowsResource where
  language : Option Nat
  versionInfo : List (VIKey × Nat)
  strings : List (List Char × List Char)

/-- Model of `WindowsResource::new()`. -/
def WindowsResource.new : WindowsResource := ⟨none, [], []⟩

/-- Model of `res.set_language(lang)`. -/
def WindowsResource.set_language (res : WindowsResource) (lang : Nat) : WindowsResource :=
  { res with language := some lang }

/-- Model of `res.set_version_info(key, value)`. -/
def WindowsResource.set_version_info (res : WindowsResource) (key : VIKey) (val : Nat) :
    WindowsResource :=
  { res with versionInfo := upsertAssoc res.versionInfo key val }

/-- Model of `res.set(key, value)`. -/
def WindowsResource.set (res : WindowsResource) (key val : List Char) : WindowsResource :=
  { res with strings := upsertAssoc res.strings key val }

/-- The build environment `cdylib_win_rc` observes. -/
structure BuildEnv where
  msvc : Bool
  cargoPkgName : Option (List Char)
  currentYear : Int
  compileOk : Bool

/-- The packed value `(version.major << 48) | (version.minor << 32) | (version.patch << 16)`
in `u64` arithmetic: each shift truncates modulo `2 ^ 64`. -/
def version_hex (v : Version) : Nat :=
  ((v.major <<< 48) % U64) ||| ((v.minor <<< 32) % U64) ||| ((v.patch <<< 16) % U64)

/-- The string `format!("{}.{}.{}.0", major, minor, patch)`. -/
def version_str_win (v : Version) : List Char := Version.display v ++ [ '.', '0' ]

/-- The author string constant of `cdylib_win_rc`. -/
def authorStr : List Char := "Vadim Piven <vadim@piven.tech> (https://piven.tech)".data

/-- The string `format!("Copyright © {} {}", chrono::Utc::now().year(), author)`. -/
def copyrightStr (year : Int) : List Char :=
  "Copyright © ".data ++ intChars year ++ ' ' :: authorStr

/-- The builder calls of `cdylib_win_rc`, in source order. -/
def buildWinResource (internal_name : List Char) (year : Int) (product : List Char)
    (version : Version) (filename : List Char) : WindowsResource :=
  ((((((((((((((((WindowsResource.new.set_language 0x0409).set_version_info
    .FILEVERSION (version_hex version)).set_version_info
    .PRODUCTVERSION (version_hex version)).set_version_info
    .FILEFLAGSMASK 0x3F).set_version_info
    .FILEFLAGS 0).set_version_info
    .FILEOS 0x40004).set_version_info
    .FILETYPE 2).set_version_info
    .FILESUBTYPE 0).set
    "CompanyName".data authorStr).set
    "LegalCopyright".data (copyrightStr year)).set
    "ProductName".data product).set
    "FileDescription".data product).set
    "InternalName".data internal_name).set
    "OriginalFilename".data filename).set
    "ProductVersion".data (version_str_win version)).set
    "FileVersion".data (version_str_win version))

/-- Model of `cdylib_win_rc`: a no-op returning `Ok(())` off MSVC (modelled as
`Ok(none)`); on MSVC it reads `CARGO_PKG_NAME` (an error if absent),
builds the resource, and compiles it (`Ok(some resource)` on success,
the error `"failed to compile windows resource"` otherwise). -/
def cdylib_win_rc (env : BuildEnv) (product : List Char) (version : Version)
    (filename : List Char) : Except String (Option WindowsResource) :=
  if env.msvc = false then .ok none
  else
    match env.cargoPkgName with
    | none => .error "CARGO_PKG_NAME is set by cargo for build.rs"
    | some internal_name =>
      let res := buildWinResource internal_name env.currentYear product version filename
      if env.compileOk then .ok (some res) else .error "failed to compile windows resource"

/-! ## Arithmetic facts about decimal digit lists -/

theorem decDigitsAux_congr :
    ∀ f₁ f₂ n, n < f₁ → n < f₂ → decDigitsAux f₁ n = decDigitsAux f₂ n := by
  intro f₁
  induction f₁ with
  | zero => intro f₂ n h1 _; omega
  | succ f ih =>
    intro f₂ n h1 h2
    match f₂ with
    | 0 => omega
    | f' + 1 =>
      simp only [decDigitsAux]
      by_cases hn : n < 10
      · simp [hn]
      · have hdiv : n / 10 < n := Nat.div_lt_self (by omega) (by omega)
        simp only [hn, if_false]
        rw [ih f' (n / 10) (by omega) (by omega)]

theorem decDigits_eq (n : Nat) :
    decDigits n = if n < 10 then [n] else decDigits (n / 10) ++ [n % 10] := by
  by_cases hn : n < 10
  · simp [decDigits, decDigitsAux, hn]
  · have hdiv : n / 10 < n := Nat.div_lt_self (by omega) (by omega)
    rw [if_neg hn]
    show decDigitsAux (n + 1) n = decDigits (n / 10) ++ [n % 10]
    rw [decDigitsAux, if_neg hn]
    congr 1
    exact decDigitsAux_congr n (n / 10 + 1) (n / 10) hdiv (by omega)

theorem decDigits_ne_nil (n : Nat) : decDigits n ≠ [] := by
  rw [decDigits_eq]
  by_cases hn : n < 10 <;> simp [hn]

theorem decDigits_lt (n : Nat) : ∀ d ∈ decDigits n, d < 10 := by
  induction n using Nat.strong_induction_on with
  | _ n ih =>
    rw [decDigits_eq]
    by_cases hn : n < 10
    · simp [hn]
    · have hdiv : n / 10 < n := Nat.div_lt_self (by omega) (by omega)
      simp only [hn, if_false]
      intro d hd
      rcases List.mem_append.mp hd with h | h
      · exact ih (n / 10) hdiv d h
      · simp only [List.mem_singleton] at h
        omega

theorem pureAccum_decDigits (n : Nat) : pureAccum 0 (decDigits n) = n := by
  induction n using Nat.strong_induction_on with
  | _ n ih =>
    rw [decDigits_eq]
    by_cases hn : n < 10
    · simp [hn, pureAccum]
    · have hdiv : n / 10 < n := Nat.div_lt_self (by omega) (by omega)
      simp only [hn, if_false, pureAccum, List.foldl_append, List.foldl_cons, List.foldl_nil]
      have := ih (n / 10) hdiv
      simp only [pureAccum] at this
      rw [this]
      have := Nat.div_add_mod n 10
      omega

theorem pureAccum_congr :
    ∀ (ds : List Nat) (x y : Nat), x % U64 = y % U64 →
      pureAccum x ds % U64 = pureAccum y ds % U64 := by
  intro ds
  induction ds with
  | nil => intro x y h; exact h
  | cons d ds ih =>
    intro x y h
    simp only [pureAccum, List.foldl_cons] at *
    exact ih (x * 10 + d) (y * 10 + d) ((Nat.ModEq.mul_right 10 h).add_right d)

theorem accum_eq_mod :
    ∀ (ds : List Nat) (v : Nat), ds ≠ [] → accum v ds = pureAccum v ds % U64 := by
  intro ds
  induction ds with
  | nil => intro v h; exact absurd rfl h
  | cons d ds ih =>
    intro v _
    match ds, ih with
    | [], _ => simp [accum, pureAccum]
    | e :: ds', ih =>
      have h1 : accum v (d :: e :: ds') = accum ((v * 10 + d) % U64) (e :: ds') := rfl
      rw [h1, ih ((v * 10 + d) % U64) (by simp)]
      have h2 : pureAccum v (d :: e :: ds') = pureAccum (v * 10 + d) (e :: ds') := rfl
      rw [h2]
      exact pureAccum_congr (e :: ds') ((v * 10 + d) % U64) (v * 10 + d)
        (Nat.mod_mod_of_dvd (v * 10 + d) dvd_rfl)

theorem accum_decDigits (n : Nat) (h : n < U64) : accum 0 (decDigits n) = n := by
  rw [accum_eq_mod (decDigits n) 0 (decDigits_ne_nil n), pureAccum_decDigits,
    Nat.mod_eq_of_lt h]

/-! ## Behaviour of the parse loop on digit runs and separators -/

theorem parseGo_digits_seg0 (ds : List Nat) (h : ∀ d ∈ ds, d < 10)
    (rest : List Nat) (v0 v1 v2 : Nat) :
    parseGo (digitsToBytes ds ++ rest) v0 v1 v2 0 = parseGo rest (accum v0 ds) v1 v2 0 := by
  induction ds generalizing v0 with
  | nil => rfl
  | cons d ds ih =>
    have hd : d < 10 := h d (List.mem_cons_self d ds)
    show parseGo ((d + 48) :: (digitsToBytes ds ++ rest)) v0 v1 v2 0 = _
    rw [parseGo, if_neg (by omega), if_neg (by omega : ¬ (d + 48 = 46)),
      if_neg (by omega : ¬ (d + 48 < 48 ∨ 57 < d + 48)), if_pos rfl]
    have heq : (v0 * 10 + (d + 48 - 48)) % U64 = (v0 * 10 + d) % U64 := by simp
    rw [heq, ih (fun e he => h e (List.mem_cons_of_mem d he))]
    rfl

theorem parseGo_digits_seg1 (ds : List Nat) (h : ∀ d ∈ ds, d < 10)
    (rest : List Nat) (v0 v1 v2 : Nat) :
    parseGo (digitsToBytes ds ++ rest) v0 v1 v2 1 = parseGo rest v0 (accum v1 ds) v2 1 := by
  induction ds generalizing v1 with
  | nil => rfl
  | cons d ds ih =>
    have hd : d < 10 := h d (List.mem_cons_self d ds)
    show parseGo ((d + 48) :: (digitsToBytes ds ++ rest)) v0 v1 v2 1 = _
    rw [parseGo, if_neg (by omega), if_neg (by omega : ¬ (d + 48 = 46)),
      if_neg (by omega : ¬ (d + 48 < 48 ∨ 57 < d + 48)), if_neg (by omega : ¬ (1 = 0)),
      if_pos rfl]
    have heq : (v1 * 10 + (d + 48 - 48)) % U64 = (v1 * 10 + d) % U64 := by simp
    rw [heq, ih (fun e he => h e (List.mem_cons_of_mem d he))]
    rfl

theorem parseGo_digits_seg2 (ds : List Nat) (h : ∀ d ∈ ds, d < 10) (v0 v1 v2 : Nat) :
    parseGo (digitsToBytes ds) v0 v1 v2 2 = some ⟨v0, v1, accum v2 ds⟩ := by
  induction ds generalizing v2 with
  | nil => rfl
  | cons d ds ih =>
    have hd : d < 10 := h d (List.mem_cons_self d ds)
    show parseGo ((d + 48) :: digitsToBytes ds) v0 v1 v2 2 = _
    rw [parseGo, if_neg (by omega), if_neg (by omega : ¬ (d + 48 = 46)),
      if_neg (by omega : ¬ (d + 48 < 48 ∨ 57 < d + 48)), if_neg (by omega : ¬ (2 = 0)),
      if_neg (by omega : ¬ (2 = 1))]
    have heq : (v2 * 10 + (d + 48 - 48)) % U64 = (v2 * 10 + d) % U64 := by simp
    rw [heq, ih (fun e he => h e (List.mem_cons_of_mem d he))]
    rfl

theorem parseGo_dot (rest : List Nat) (v0 v1 v2 seg : Nat) (h : seg < 3) :
    parseGo (46 :: rest) v0 v1 v2 seg = parseGo rest v0 v1 v2 (seg + 1) := by
  rw [parseGo, if_neg (by omega), if_pos rfl]

theorem digitsToChars_map_toNat (ds : List Nat) (h : ∀ d ∈ ds, d < 10) :
    (digitsToChars ds).map Char.toNat = digitsToBytes ds := by
  induction ds with
  | nil => rfl
  | cons d ds ih =>
    have hd : d < 10 := h d (List.mem_cons_self d ds)
    have hchar : (Char.ofNat (d + 48)).toNat = d + 48 := by
      interval_cases d <;> decide
    show (Char.ofNat (d + 48)).toNat :: (digitsToChars ds).map Char.toNat =
      (d + 48) :: digitsToBytes ds
    rw [hchar, ih (fun e he => h e (List.mem_cons_of_mem d he))]


/-! ## Claims C1 and C2: the parser grammar and the parse/format round trip -/

/-- C1 (counterexample): contrary to the claim that every input with an
empty numeric segment is rejected, `Version::parse` accepts `"v11.2."`,
whose third segment is empty, and returns `Some(Version{11, 2, 0})`. -/
theorem c1_empty_segment_counterexample :
    Version.parse (strBytes "v11.2.") = some ⟨11, 2, 0⟩ ∧
      Version.parse (strBytes "v11.2.") ≠ none := by
  exact ⟨by decide, by decide⟩

/-- C1 (amended): an empty segment causes rejection only through the
minimum-length rule: every input shorter than 6 bytes (which covers
`"v1..2"`) is rejected, while an empty segment in an input of length at
least 6 is not rejected — it contributes the value 0: `"v11.2."` parses
as `Some(Version{11, 2, 0})` and `"v11..2"` as `Some(Version{11, 0, 2})`. -/
theorem c1_empty_segment_amended :
    (∀ bs : List Nat, bs.length < 6 → Version.parse bs = none) ∧
      Version.parse (strBytes "v1..2") = none ∧
      Version.parse (strBytes "v11.2.") = some ⟨11, 2, 0⟩ ∧
      Version.parse (strBytes "v11..2") = some ⟨11, 0, 2⟩ := by
  refine ⟨?_, by decide, by decide, by decide⟩
  intro bs h
  match bs with
  | [] => rfl
  | b :: rest =>
    have hlen : 1 + rest.length < 6 := by
      simp only [List.length_cons] at h
      omega
    simp only [Version.parse]
    rw [if_pos (Or.inl hlen)]

/-- C1 (witness for the amended theorem): `"v1.2"` is shorter than 6
bytes and is rejected. -/
theorem c1_empty_segment_witness : Version.parse (strBytes "v1.2") = none :=
  c1_empty_segment_amended.1 (strBytes "v1.2") (by decide)

/-- C2: for all `u64`-representable `a`, `b`, `c`, `Version::parse` maps
the string `"v{a}.{b}.{c}"` (the `v` prefix followed by the `Display`
rendering) to exactly `Version{a, b, c}`, and that `Display` rendering is
`"{a}.{b}.{c}"` — the full round trip of the claim. -/
theorem c2_parse_display_roundtrip (a b c : Nat)
    (ha : a < U64) (hb : b < U64) (hc : c < U64) :
    Version.parse (118 :: (Version.display ⟨a, b, c⟩).map Char.toNat) = some ⟨a, b, c⟩ ∧
      Version.display ⟨a, b, c⟩ =
        digitsToChars (decDigits a) ++ [ '.' ] ++ digitsToChars (decDigits b) ++
          [ '.' ] ++ digitsToChars (decDigits c) := by
  refine ⟨?_, rfl⟩
  have hA := decDigits_lt a
  have hB := decDigits_lt b
  have hC := decDigits_lt c
  have mapEq : (Version.display ⟨a, b, c⟩).map Char.toNat =
      digitsToBytes (decDigits a) ++
        46 :: (digitsToBytes (decDigits b) ++ 46 :: digitsToBytes (decDigits c)) := by
    simp only [Version.display, List.map_append, digitsToChars_map_toNat _ hA,
      digitsToChars_map_toNat _ hB, digitsToChars_map_toNat _ hC]
    simp [List.append_assoc]
  rw [mapEq]
  have lenA : 1 ≤ (digitsToBytes (decDigits a)).length := by
    simpa [digitsToBytes] using List.length_pos.mpr (decDigits_ne_nil a)
  have lenB : 1 ≤ (digitsToBytes (decDigits b)).length := by
    simpa [digitsToBytes] using List.length_pos.mpr (decDigits_ne_nil b)
  have lenC : 1 ≤ (digitsToBytes (decDigits c)).length := by
    simpa [digitsToBytes] using List.length_pos.mpr (decDigits_ne_nil c)
  simp only [Version.parse]
  rw [if_neg]
  · rw [parseGo_digits_seg0 _ hA, parseGo_dot _ _ _ _ _ (by omega),
      parseGo_digits_seg1 _ hB, parseGo_dot _ _ _ _ _ (by omega),
      parseGo_digits_seg2 _ hC, accum_decDigits a ha, accum_decDigits b hb,
      accum_decDigits c hc]
  · push_neg
    refine ⟨?_, rfl⟩
    simp only [List.length_append, List.length_cons]
    omega

/-- C2 (witness): the round trip at the concrete version `1.2.3`. -/
theorem c2_parse_display_roundtrip_witness :
    Version.parse (118 :: (Version.display ⟨1, 2, 3⟩).map Char.toNat) = some ⟨1, 2, 3⟩ :=
  (c2_parse_display_roundtrip 1 2 3 (by decide) (by decide) (by decide)).1

/-! ## Claims C3 and C4: the resolver fallback ladder -/

/-- C3 (counterexample): in a world where the repository probe succeeds
and `git describe --tags` exits zero with trimmed output `"v1.0.0"`, the
claim demands that `get_version` return that output; but because the
bookkeeping's branch query fails to run, `get_version` instead propagates
an error and returns no version string at all. -/
theorem c3_ladder_counterexample :
    valid_git_repo c3World = true ∧
      git_describe_tags c3World.describeCmd = .ok (some "v1.0.0".data) ∧
      get_version c3World = .error "Failed to run `git branch --show-current`" ∧
      get_version c3World ≠ .ok "v1.0.0".data := by
  refine ⟨rfl, by decide, rfl, by decide⟩

/-- C3 (amended): the fallback ladder as claimed, provided the
build-invalidation bookkeeping step returns (rather than propagating the
branch query's run/decode failure): probe failure yields the sentinel;
a successful describe output is returned; otherwise a successful
rev-parse output is returned; otherwise the sentinel.  Unconditionally, a
non-zero exit or an empty trimmed output of an individual query is
`Ok(None)` — fallthrough, never an error. -/
theorem c3_fallback_ladder :
    (∀ w : GitWorld, valid_git_repo w = false → get_version w = .ok undefinedStr) ∧
      (∀ (w : GitWorld) (ds : List String), valid_git_repo w = true →
        rerun_if_git_ref_changed w = .ok ds →
        (∀ t, git_describe_tags w.describeCmd = .ok (some t) → get_version w = .ok t) ∧
          (git_describe_tags w.describeCmd = .ok none →
            (∀ h, git_rev_parse_commit_hash w.revParseCmd = .ok (some h) →
              get_version w = .ok h) ∧
              (git_rev_parse_commit_hash w.revParseCmd = .ok none →
                get_version w = .ok undefinedStr))) ∧
      (∀ (cmd : CmdOutcome) (msg : String), cmd.ran = true → cmd.exitOk = false →
        queryOutput cmd msg = .ok none) ∧
      (∀ (cmd : CmdOutcome) (msg : String) (s : List Char), cmd.ran = true →
        cmd.exitOk = true → utf8Decode cmd.stdout = some s → trimChars s = [] →
        queryOutput cmd msg = .ok none) := by
  refine ⟨?_, ?_, ?_, ?_⟩
  · intro w hw
    simp [get_version, hw]
  · intro w ds hw hbk
    refine ⟨?_, ?_⟩
    · intro t hd
      simp [get_version, hw, hbk, hd]
    · intro hd
      refine ⟨?_, ?_⟩
      · intro h hr
        simp [get_version, hw, hbk, hd, hr]
      · intro hr
        simp [get_version, hw, hbk, hd, hr]
  · intro cmd msg hran hexit
    simp [queryOutput, hran, hexit]
  · intro cmd msg s hran hexit hdec htrim
    simp [queryOutput, hran, hexit, hdec, htrim]

/-- C3 (witness): a world whose repository probe fails resolves to the
sentinel `"undefined"`. -/
theorem c3_fallback_ladder_witness : get_version c3NoRepoWorld = .ok undefinedStr :=
  c3_fallback_ladder.1 c3NoRepoWorld rfl

/-- C4 (counterexample): the bookkeeping step is not harmless — when the
branch query's stdout is the invalid UTF-8 byte `0xFF`, decoding fails,
`rerun_if_git_ref_changed` returns that error, and `get_version`
propagates it instead of returning a raw version string. -/
theorem c4_bookkeeping_counterexample :
    valid_git_repo c4World = true ∧
      rerun_if_git_ref_changed c4World = .error "valid UTF-8" ∧
      get_version c4World = .error "valid UTF-8" ∧
      exceptIsOk (get_version c4World) = false := by
  exact ⟨rfl, rfl, rfl, rfl⟩

/-- C4 (amended): whenever the bookkeeping step itself returns (its
branch query ran and decoded), and the two ladder queries do not
themselves error, `get_version` returns a raw version string — the
bookkeeping's `Ok(None)` outcomes (non-zero exit, empty output) never
fail the resolution. -/
theorem c4_bookkeeping_never_fails (w : GitWorld)
    (h1 : exceptIsOk (rerun_if_git_ref_changed w) = true)
    (h2 : exceptIsOk (git_describe_tags w.describeCmd) = true)
    (h3 : exceptIsOk (git_rev_parse_commit_hash w.revParseCmd) = true) :
    exceptIsOk (get_version w) = true := by
  by_cases hw : valid_git_repo w = true
  · cases hbk : rerun_if_git_ref_changed w with
    | error e => rw [hbk] at h1; simp [exceptIsOk] at h1
    | ok ds =>
      cases hd : git_describe_tags w.describeCmd with
      | error e => rw [hd] at h2; simp [exceptIsOk] at h2
      | ok od =>
        cases od with
        | some t => simp [get_version, hw, hbk, hd, exceptIsOk]
        | none =>
          cases hr : git_rev_parse_commit_hash w.revParseCmd with
          | error e => rw [hr] at h3; simp [exceptIsOk] at h3
          | ok oh =>
            cases oh with
            | some h => simp [get_version, hw, hbk, hd, hr, exceptIsOk]
            | none => simp [get_version, hw, hbk, hd, hr, exceptIsOk]
  · simp only [Bool.not_eq_true] at hw
    simp [get_version, hw, exceptIsOk]

/-- C4 (witness): in a fully well-behaved world the resolution succeeds. -/
theorem c4_bookkeeping_never_fails_witness : exceptIsOk (get_version c4GoodWorld) = true :=
  c4_bookkeeping_never_fails c4GoodWorld (by decide) (by decide) (by decide)

/-! ## Whitespace and token lemmas for the JSON parser -/

theorem skipWs_cons_of_not (c : Char) (cs : List Char) (h : isJsonWs c = false) :
    skipWs (c :: cs) = c :: cs := by
  show List.dropWhile isJsonWs (c :: cs) = c :: cs
  rw [List.dropWhile_cons, if_neg (by simp [h])]

theorem skipWs_append_ws (a b : List Char) (h : ∀ c ∈ a, isJsonWs c = true) :
    skipWs (a ++ b) = skipWs b := by
  induction a with
  | nil => rfl
  | cons c a ih =>
    show List.dropWhile isJsonWs (c :: (a ++ b)) = skipWs b
    rw [List.dropWhile_cons, if_pos (by simp [h c (List.mem_cons_self c a)])]
    exact ih (fun d hd => h d (List.mem_cons_of_mem c hd))

theorem indentChars_ws (ind : Nat) : ∀ c ∈ indentChars ind, isJsonWs c = true := by
  intro c hc
  have := List.eq_of_mem_replicate hc
  subst this
  decide

theorem skipWs_nl_indent (ind : Nat) (cs : List Char) :
    skipWs ('\n' :: (indentChars ind ++ cs)) = skipWs cs := by
  have h : ∀ c ∈ '\n' :: indentChars ind, isJsonWs c = true := by
    intro c hc
    rcases List.mem_cons.mp hc with h | h
    · subst h; decide
    · exact indentChars_ws ind c h
  have := skipWs_append_ws ('\n' :: indentChars ind) cs h
  simpa using this

theorem parseVal_congr (fuel : Nat) (cs₁ cs₂ : List Char) (h : skipWs cs₁ = skipWs cs₂) :
    parseVal fuel cs₁ = parseVal fuel cs₂ := by
  cases fuel with
  | zero => rfl
  | succ f => simp only [parseVal]; rw [h]

theorem charDigit_toNat (d : Nat) (h : d < 10) : (Char.ofNat (d + 48)).toNat = d + 48 := by
  interval_cases d <;> decide

theorem charDigit_isDigit (d : Nat) (h : d < 10) :
    isDigitCh (Char.ofNat (d + 48)) = true := by
  interval_cases d <;> decide

theorem charDigit_not_ws (d : Nat) (h : d < 10) :
    isJsonWs (Char.ofNat (d + 48)) = false := by
  interval_cases d <;> decide

theorem hexVal_hexDigit (x : Nat) (h : x < 16) : hexVal (hexDigit x) = some x := by
  interval_cases x <;> rfl

theorem hexQuad_00 (x y : Char) (a b : Nat) (hx : hexVal x = some a) (hy : hexVal y = some b) :
    hexQuad '0' '0' x y = some (a * 16 + b) := by
  have h0 : hexVal '0' = some 0 := rfl
  simp [hexQuad, hx, hy, h0]

theorem parseStrBody_raw (c : Char) (X : List Char) (h1 : ¬ c = '"') (h2 : ¬ c = '\\')
    (h3 : ¬ c.toNat < 32) :
    parseStrBody (c :: X) = (parseStrBody X).map (fun p => (c :: p.1, p.2)) := by
  rw [parseStrBody.eq_def]
  split <;> simp_all

/-- Escaping then parsing a string body restores the original content. -/
theorem parseStrBody_roundtrip (s rest : List Char) :
    parseStrBody ((s.map escapeChar).flatten ++ '"' :: rest) = some (s, rest) := by
  induction s with
  | nil => rfl
  | cons c s ih =>
    show parseStrBody ((escapeChar c ++ (s.map escapeChar).flatten) ++ '"' :: rest) = _
    rw [List.append_assoc]
    by_cases h1 : c = '"'
    · subst h1
      rw [show escapeChar '"' = ['\\', '"'] from rfl]
      simp only [List.cons_append, List.nil_append]
      have red : ∀ X, parseStrBody ('\\' :: '"' :: X) =
          (parseStrBody X).map (fun p => ('"' :: p.1, p.2)) := fun _ => rfl
      rw [red, ih]; rfl
    · by_cases h2 : c = '\\'
      · subst h2
        rw [show escapeChar '\\' = ['\\', '\\'] from rfl]
        simp only [List.cons_append, List.nil_append]
        have red : ∀ X, parseStrBody ('\\' :: '\\' :: X) =
            (parseStrBody X).map (fun p => ('\\' :: p.1, p.2)) := fun _ => rfl
        rw [red, ih]; rfl
      · by_cases h3 : c.toNat = 8
        · have hc : c = Char.ofNat 8 := by rw [← h3, Char.ofNat_toNat]
          subst hc
          rw [show escapeChar (Char.ofNat 8) = ['\\', 'b'] from rfl]
          simp only [List.cons_append, List.nil_append]
          have red : ∀ X, parseStrBody ('\\' :: 'b' :: X) =
              (parseStrBody X).map (fun p => (Char.ofNat 8 :: p.1, p.2)) := fun _ => rfl
          rw [red, ih]; rfl
        · by_cases h4 : c.toNat = 9
          · have hc : c = '\t' := by
              have h : c = Char.ofNat 9 := by rw [← h4, Char.ofNat_toNat]
              rw [h]
            subst hc
            rw [show escapeChar '\t' = ['\\', 't'] from rfl]
            simp only [List.cons_append, List.nil_append]
            have red : ∀ X, parseStrBody ('\\' :: 't' :: X) =
                (parseStrBody X).map (fun p => ('\t' :: p.1, p.2)) := fun _ => rfl
            rw [red, ih]; rfl
          · by_cases h5 : c.toNat = 10
            · have hc : c = '\n' := by
                have h : c = Char.ofNat 10 := by rw [← h5, Char.ofNat_toNat]
                rw [h]
              subst hc
              rw [show escapeChar '\n' = ['\\', 'n'] from rfl]
              simp only [List.cons_append, List.nil_append]
              have red : ∀ X, parseStrBody ('\\' :: 'n' :: X) =
                  (parseStrBody X).map (fun p => ('\n' :: p.1, p.2)) := fun _ => rfl
              rw [red, ih]; rfl
            · by_cases h6 : c.toNat = 12
              · have hc : c = Char.ofNat 12 := by rw [← h6, Char.ofNat_toNat]
                subst hc
                rw [show escapeChar (Char.ofNat 12) = ['\\', 'f'] from rfl]
                simp only [List.cons_append, List.nil_append]
                have red : ∀ X, parseStrBody ('\\' :: 'f' :: X) =
                    (parseStrBody X).map (fun p => (Char.ofNat 12 :: p.1, p.2)) := fun _ => rfl
                rw [red, ih]; rfl
              · by_cases h7 : c.toNat = 13
                · have hc : c = '\r' := by
                    have h : c = Char.ofNat 13 := by rw [← h7, Char.ofNat_toNat]
                    rw [h]
                  subst hc
                  rw [show escapeChar '\r' = ['\\', 'r'] from rfl]
                  simp only [List.cons_append, List.nil_append]
                  have red : ∀ X, parseStrBody ('\\' :: 'r' :: X) =
                      (parseStrBody X).map (fun p => ('\r' :: p.1, p.2)) := fun _ => rfl
                  rw [red, ih]; rfl
                · by_cases h8 : c.toNat < 32
                  · have hesc : escapeChar c =
                        ['\\', 'u', '0', '0', hexDigit (c.toNat / 16), hexDigit (c.toNat % 16)] := by
                      rw [escapeChar, if_neg h1, if_neg h2, if_neg h3, if_neg h4, if_neg h5,
                        if_neg h6, if_neg h7, if_pos h8]
                    rw [hesc]
                    simp only [List.cons_append, List.nil_append]
                    have red : ∀ a b X, parseStrBody ('\\' :: 'u' :: '0' :: '0' :: a :: b :: X) =
                        (match hexQuad '0' '0' a b with
                          | none => none
                          | some cp =>
                            if 0xD800 ≤ cp ∧ cp < 0xE000 then none
                            else (parseStrBody X).map (fun p => (Char.ofNat cp :: p.1, p.2))) :=
                      fun _ _ _ => rfl
                    rw [red, hexQuad_00 _ _ (c.toNat / 16) (c.toNat % 16)
                      (hexVal_hexDigit _ (by omega)) (hexVal_hexDigit _ (by omega))]
                    have hval : c.toNat / 16 * 16 + c.toNat % 16 = c.toNat := by omega
                    rw [hval]
                    show (if 0xD800 ≤ c.toNat ∧ c.toNat < 0xE000 then none
                      else (parseStrBody _).map (fun p => (Char.ofNat c.toNat :: p.1, p.2))) = _
                    rw [if_neg (by omega), ih, Char.ofNat_toNat]; rfl
                  · have hesc : escapeChar c = [c] := by
                      rw [escapeChar, if_neg h1, if_neg h2, if_neg h3, if_neg h4, if_neg h5,
                        if_neg h6, if_neg h7, if_neg h8]
                    rw [hesc]
                    simp only [List.cons_append, List.nil_append]
                    rw [parseStrBody_raw c _ h1 h2 h8, ih]; rfl

/-! ## Number token lemmas -/

theorem takeDigits_append (ds : List Nat) (h : ∀ d ∈ ds, d < 10) (rest : List Char)
    (hrest : noLeadingDigit rest = true) :
    takeDigits (digitsToChars ds ++ rest) = (ds, rest) := by
  induction ds with
  | nil =>
    cases rest with
    | nil => rfl
    | cons c r =>
      simp only [noLeadingDigit, Bool.not_eq_true'] at hrest
      show takeDigits (c :: r) = ([], c :: r)
      simp only [takeDigits, hrest]
      rfl
  | cons d ds ih =>
    have hd : d < 10 := h d (List.mem_cons_self d ds)
    show takeDigits (Char.ofNat (d + 48) :: (digitsToChars ds ++ rest)) = _
    simp only [takeDigits, charDigit_isDigit d hd, if_true]
    rw [ih (fun e he => h e (List.mem_cons_of_mem d he)), charDigit_toNat d hd]
    simp

theorem decDigits_cons (m : Nat) :
    ∃ d ds, decDigits m = d :: ds ∧ d < 10 ∧ ∀ e ∈ ds, e < 10 := by
  cases hds : decDigits m with
  | nil => exact absurd hds (decDigits_ne_nil m)
  | cons d ds =>
    refine ⟨d, ds, rfl, ?_, ?_⟩
    · exact decDigits_lt m d (by rw [hds]; exact List.mem_cons_self d ds)
    · intro e he
      exact decDigits_lt m e (by rw [hds]; exact List.mem_cons_of_mem d he)

theorem charDigit_branch (d : Nat) (h : d < 10) :
    (¬ Char.ofNat (d + 48) = 'n') ∧ (¬ Char.ofNat (d + 48) = 't') ∧
      (¬ Char.ofNat (d + 48) = 'f') ∧ (¬ Char.ofNat (d + 48) = '"') ∧
      (¬ Char.ofNat (d + 48) = '[') ∧ (¬ Char.ofNat (d + 48) = lbrace) ∧
      (¬ Char.ofNat (d + 48) = '-') ∧ (¬ Char.ofNat (d + 48) = ']') ∧
      (¬ Char.ofNat (d + 48) = rbrace) ∧ (¬ Char.ofNat (d + 48) = ',') ∧
      (¬ Char.ofNat (d + 48) = ':') := by
  interval_cases d <;> decide

theorem parseIntToken_intChars (n : Int) (rest : List Char)
    (hrest : noLeadingDigit rest = true) :
    parseIntToken (intChars n ++ rest) = some (n, rest) := by
  obtain ⟨d0, ds, hds, hd0, hdall⟩ := decDigits_cons n.natAbs
  have hall : ∀ e ∈ decDigits n.natAbs, e < 10 := by
    rw [hds]; intro e he
    rcases List.mem_cons.mp he with h | h
    · omega
    · exact hdall e h
  by_cases hn : n < 0
  · rw [intChars, if_pos hn]
    show parseIntToken ('-' :: (digitsToChars (decDigits n.natAbs) ++ rest)) = _
    simp only [parseIntToken, if_true]
    rw [takeDigits_append _ hall rest hrest, hds]
    show some (-(Int.ofNat (pureAccum 0 (d0 :: ds))), rest) = _
    rw [← hds, pureAccum_decDigits]
    have h2 : -(Int.ofNat n.natAbs) = n := by
      simp only [Int.ofNat_eq_coe]
      omega
    rw [h2]
  · rw [intChars, if_neg hn, hds]
    show parseIntToken (Char.ofNat (d0 + 48) :: (digitsToChars ds ++ rest)) = _
    simp only [parseIntToken]
    rw [if_neg (charDigit_branch d0 hd0).2.2.2.2.2.2.1]
    have heq : Char.ofNat (d0 + 48) :: (digitsToChars ds ++ rest) =
        digitsToChars (decDigits n.natAbs) ++ rest := by rw [hds]; rfl
    rw [heq, takeDigits_append _ hall rest hrest, hds]
    show some (Int.ofNat (pureAccum 0 (d0 :: ds)), rest) = _
    rw [← hds, pureAccum_decDigits]
    have h2 : Int.ofNat n.natAbs = n := by
      simp only [Int.ofNat_eq_coe]
      omega
    rw [h2]

/-! ## Head and length facts about the serializer -/

theorem intChars_head (n : Int) :
    ∃ c cs, intChars n = c :: cs ∧ isJsonWs c = false ∧ ¬ c = ']' ∧ ¬ c = rbrace ∧
      (c = '-' ∨ isDigitCh c = true) := by
  obtain ⟨d0, ds, hds, hd0, _⟩ := decDigits_cons n.natAbs
  by_cases hn : n < 0
  · exact ⟨'-', _, by rw [intChars, if_pos hn], by decide, by decide, by decide, Or.inl rfl⟩
  · refine ⟨Char.ofNat (d0 + 48), digitsToChars ds, ?_, charDigit_not_ws d0 hd0,
      (charDigit_branch d0 hd0).2.2.2.2.2.2.2.1, (charDigit_branch d0 hd0).2.2.2.2.2.2.2.2.1,
      Or.inr (charDigit_isDigit d0 hd0)⟩
    rw [intChars, if_neg hn, hds]
    rfl

theorem serializeVal_head (d : JValue) (ind : Nat) :
    ∃ c cs, serializeVal ind d = c :: cs ∧ isJsonWs c = false ∧ ¬ c = ']' ∧ ¬ c = rbrace := by
  have hgood : ∀ c : Char, isJsonWs c = false → c.toNat ≠ 93 → c.toNat ≠ 125 →
      isJsonWs c = false ∧ ¬ c = ']' ∧ ¬ c = rbrace := by
    intro c hws h1 h2
    refine ⟨hws, fun he => h1 ?_, fun he => h2 ?_⟩
    · rw [he]; rfl
    · rw [he]; rfl
  cases d with
  | null => exact ⟨'n', _, rfl, hgood 'n' rfl (by decide) (by decide)⟩
  | bool b =>
    cases b with
    | true => exact ⟨'t', _, rfl, hgood 't' rfl (by decide) (by decide)⟩
    | false => exact ⟨'f', _, rfl, hgood 'f' rfl (by decide) (by decide)⟩
  | num n =>
    obtain ⟨c, cs, hcs, hws, h1, h2, _⟩ := intChars_head n
    exact ⟨c, cs, hcs, hws, h1, h2⟩
  | str s => exact ⟨'"', _, rfl, hgood '"' rfl (by decide) (by decide)⟩
  | arr es =>
    cases es with
    | nil => exact ⟨'[', _, rfl, hgood '[' rfl (by decide) (by decide)⟩
    | cons v rest => exact ⟨'[', _, rfl, hgood '[' rfl (by decide) (by decide)⟩
  | obj ms =>
    cases ms with
    | nil => exact ⟨lbrace, _, rfl, hgood lbrace rfl (by decide) (by decide)⟩
    | cons k v rest => exact ⟨lbrace, _, rfl, hgood lbrace rfl (by decide) (by decide)⟩

theorem noLeadingDigit_serializeElems (es : JElems) (ind : Nat) (tail : List Char) :
    noLeadingDigit (serializeElems ind es ++ '\n' :: tail) = true := by
  cases es with
  | nil => rfl
  | cons v rest => rfl

theorem noLeadingDigit_serializeMembers (ms : JMembers) (ind : Nat) (tail : List Char) :
    noLeadingDigit (serializeMembers ind ms ++ '\n' :: tail) = true := by
  cases ms with
  | nil => rfl
  | cons k v rest => rfl

mutual
theorem needFuel_le_len (d : JValue) (ind : Nat) :
    d.needFuel ≤ (serializeVal ind d).length
  := by
  cases d with
  | null => simp [JValue.needFuel, serializeVal]
  | bool b => cases b <;> simp [JValue.needFuel, serializeVal]
  | num n =>
    obtain ⟨c, cs, hcs, _⟩ := intChars_head n
    simp [JValue.needFuel, serializeVal, hcs]
  | str s => simp [JValue.needFuel, serializeVal, quoteStr]
  | arr es =>
    cases es with
    | nil => simp [JValue.needFuel, serializeVal]
    | cons v rest =>
      have h1 := needFuel_le_len v (ind + 1)
      have h2 := needFuelE_le_len rest (ind + 1)
      simp only [JValue.needFuel, serializeVal, List.length_cons, List.length_append]
      omega
  | obj ms =>
    cases ms with
    | nil => simp [JValue.needFuel, serializeVal]
    | cons k v rest =>
      have h1 := needFuel_le_len v (ind + 1)
      have h2 := needFuelM_le_len rest (ind + 1)
      simp only [JValue.needFuel, serializeVal, List.length_cons, List.length_append]
      omega
theorem needFuelE_le_len (es : JElems) (ind : Nat) :
    es.needFuelE ≤ (serializeElems ind es).length + 1
  := by
  cases es with
  | nil => simp [JElems.needFuelE, serializeElems]
  | cons v rest =>
    have h1 := needFuel_le_len v ind
    have h2 := needFuelE_le_len rest ind
    simp only [JElems.needFuelE, serializeElems, List.length_cons, List.length_append]
    omega
theorem needFuelM_le_len (ms : JMembers) (ind : Nat) :
    ms.needFuelM ≤ (serializeMembers ind ms).length + 1
  := by
  cases ms with
  | nil => simp [JMembers.needFuelM, serializeMembers]
  | cons k v rest =>
    have h1 := needFuel_le_len v ind
    have h2 := needFuelM_le_len rest ind
    simp only [JMembers.needFuelM, serializeMembers, List.length_cons, List.length_append]
    omega
end

theorem needFuel_pos (d : JValue) : 1 ≤ d.needFuel := by
  cases d with
  | arr es => cases es <;> simp [JValue.needFuel] <;> omega
  | obj ms => cases ms <;> simp [JValue.needFuel] <;> omega
  | _ => simp [JValue.needFuel]

theorem needFuelE_pos (es : JElems) : 1 ≤ es.needFuelE := by
  cases es <;> simp [JElems.needFuelE] <;> omega

theorem needFuelM_pos (ms : JMembers) : 1 ≤ ms.needFuelM := by
  cases ms <;> simp [JMembers.needFuelM] <;> omega

theorem parseVal_num_dispatch (f : Nat) (c : Char) (X : List Char)
    (hws : isJsonWs c = false)
    (h1 : ¬ c = 'n') (h2 : ¬ c = 't') (h3 : ¬ c = 'f') (h4 : ¬ c = '"')
    (h5 : ¬ c = '[') (h6 : ¬ c = lbrace)
    (hnum : (c = '-' || isDigitCh c) = true) :
    parseVal (f + 1) (c :: X) =
      (parseIntToken (c :: X)).map (fun p => (JValue.num p.1, p.2)) := by
  simp only [parseVal]
  rw [skipWs_cons_of_not c X hws]
  simp only [h1, h2, h3, h4, h5, h6, hnum, if_false, if_true, ite_false, ite_true]

/-! ## Ordered-map lemmas -/

theorem JMembers.append_nil : ∀ (m : JMembers), m.append .nil = m
  | .nil => rfl
  | .cons k v rest => by
    show JMembers.cons k v (rest.append .nil) = _
    rw [JMembers.append_nil rest]

theorem JMembers.append_assoc :
    ∀ (a b c : JMembers), (a.append b).append c = a.append (b.append c)
  | .nil, _, _ => rfl
  | .cons k v rest, b, c => by
    show JMembers.cons k v ((rest.append b).append c) =
      JMembers.cons k v (rest.append (b.append c))
    rw [JMembers.append_assoc rest b c]

theorem JMembers.hasKey_append :
    ∀ (a b : JMembers) (key : List Char),
      (a.append b).hasKey key = (a.hasKey key || b.hasKey key)
  | .nil, _, _ => rfl
  | .cons k v rest, b, key => by
    show JMembers.hasKey (.cons k v (rest.append b)) key = _
    by_cases h : k = key
    · simp [JMembers.hasKey, h]
    · simp only [JMembers.hasKey, if_neg h]
      exact JMembers.hasKey_append rest b key

theorem JMembers.insert_fresh :
    ∀ (m : JMembers) (k : List Char) (v : JValue), m.hasKey k = false →
      m.insert k v = m.append (.cons k v .nil)
  | .nil, _, _, _ => rfl
  | .cons k' v' rest, k, v, h => by
    simp only [JMembers.hasKey] at h
    by_cases hk : k' = k
    · rw [if_pos hk] at h; exact absurd h (by simp)
    · rw [if_neg hk] at h
      show JMembers.insert (.cons k' v' rest) k v = _
      simp only [JMembers.insert, if_neg hk]
      show JMembers.cons k' v' (rest.insert k v) = JMembers.cons k' v' (rest.append _)
      rw [JMembers.insert_fresh rest k v h]

theorem JMembers.insertAll_fresh :
    ∀ (ms acc : JMembers), (∀ key, ms.hasKey key = true → acc.hasKey key = false) →
      ms.wfBM = true → JMembers.insertAll acc ms = acc.append ms
  | .nil, acc, _, _ => (JMembers.append_nil acc).symm
  | .cons k v rest, acc, hfresh, hwf => by
    simp only [JMembers.wfBM, Bool.and_eq_true, Bool.not_eq_true'] at hwf
    obtain ⟨⟨hnk, _⟩, hwfrest⟩ := hwf
    have hacck : acc.hasKey k = false := hfresh k (by simp [JMembers.hasKey])
    show JMembers.insertAll (acc.insert k v) rest = _
    rw [JMembers.insert_fresh acc k v hacck]
    rw [JMembers.insertAll_fresh rest (acc.append (.cons k v .nil)) ?_ hwfrest]
    · rw [JMembers.append_assoc]
      rfl
    · intro key hk
      rw [JMembers.hasKey_append]
      have h1 : acc.hasKey key = false := by
        refine hfresh key ?_
        show JMembers.hasKey (.cons k v rest) key = true
        by_cases hkk : k = key
        · simp [JMembers.hasKey, hkk]
        · simp [JMembers.hasKey, hkk, hk]
      have h2 : (JMembers.cons k v .nil).hasKey key = false := by
        by_cases hkk : k = key
        · subst hkk; rw [hk] at hnk; cases hnk
        · simp [JMembers.hasKey, hkk]
      rw [h1, h2]
      rfl

theorem JMembers.insertAll_head (k : List Char) (v : JValue) (ms : JMembers)
    (hfresh : ms.hasKey k = false) (hwf : ms.wfBM = true) :
    JMembers.insertAll (.cons k v .nil) ms = .cons k v ms := by
  rw [JMembers.insertAll_fresh ms (.cons k v .nil) ?_ hwf]
  · rfl
  · intro key hk
    by_cases hkk : k = key
    · subst hkk; rw [hk] at hfresh; cases hfresh
    · simp [JMembers.hasKey, hkk]

/-! ## Parser step lemmas -/

theorem parseVal_arr_step (f : Nat) (Z : List Char) (c0 : Char) (Y : List Char)
    (hskip : skipWs Z = c0 :: Y) (hne : ¬ c0 = ']') :
    parseVal (f + 1) ('[' :: Z) =
      (match parseVal f (c0 :: Y) with
        | none => none
        | some (v, r3) =>
          match parseArrRest f r3 with
          | none => none
          | some (es, r4) => some (JValue.arr (.cons v es), r4)) := by
  have red : parseVal (f + 1) ('[' :: Z) =
      (match skipWs Z with
        | [] => none
        | d :: r2 =>
          if d = ']' then some (JValue.arr .nil, r2)
          else
            match parseVal f (d :: r2) with
            | none => none
            | some (v, r3) =>
              match parseArrRest f r3 with
              | none => none
              | some (es, r4) => some (JValue.arr (.cons v es), r4)) := rfl
  rw [red, hskip]
  show (if c0 = ']' then some (JValue.arr .nil, Y)
    else
      match parseVal f (c0 :: Y) with
      | none => none
      | some (v, r3) =>
        match parseArrRest f r3 with
        | none => none
        | some (es, r4) => some (JValue.arr (.cons v es), r4)) = _
  rw [if_neg hne]

theorem parseVal_obj_step (f : Nat) (Z Y : List Char) (hskip : skipWs Z = '"' :: Y) :
    parseVal (f + 1) (lbrace :: Z) =
      (match parseStrBody Y with
        | none => none
        | some (k, r3) =>
          match skipWs r3 with
          | [] => none
          | e :: r4 =>
            if e = ':' then
              match parseVal f r4 with
              | none => none
              | some (v, r5) =>
                (parseObjRest f (JMembers.cons k v .nil) r5).map
                  (fun p => (JValue.obj p.1, p.2))
            else none) := by
  have red : parseVal (f + 1) (lbrace :: Z) =
      (match skipWs Z with
        | [] => none
        | d :: r2 =>
          if d = rbrace then some (JValue.obj .nil, r2)
          else if d = '"' then
            match parseStrBody r2 with
            | none => none
            | some (k, r3) =>
              match skipWs r3 with
              | [] => none
              | e :: r4 =>
                if e = ':' then
                  match parseVal f r4 with
                  | none => none
                  | some (v, r5) =>
                    (parseObjRest f (JMembers.cons k v .nil) r5).map
                      (fun p => (JValue.obj p.1, p.2))
                else none
          else none) := rfl
  rw [red, hskip]
  rfl

theorem parseArrRest_nil_step (f : Nat) (ind : Nat) (rest : List Char) :
    parseArrRest (f + 1) ('\n' :: (indentChars ind ++ ']' :: rest)) = some (.nil, rest) := by
  have red : parseArrRest (f + 1) ('\n' :: (indentChars ind ++ ']' :: rest)) =
      (match skipWs ('\n' :: (indentChars ind ++ ']' :: rest)) with
        | [] => none
        | c :: rest' =>
          if c = ']' then some (JElems.nil, rest')
          else if c = ',' then
            match parseVal f rest' with
            | none => none
            | some (v, r2) =>
              match parseArrRest f r2 with
              | none => none
              | some (es, r3) => some (JElems.cons v es, r3)
          else none) := rfl
  rw [red, skipWs_nl_indent, skipWs_cons_of_not ']' rest (by decide)]
  rfl

theorem parseObjRest_nil_step (f : Nat) (acc : JMembers) (ind : Nat) (rest : List Char) :
    parseObjRest (f + 1) acc ('\n' :: (indentChars ind ++ rbrace :: rest)) =
      some (acc, rest) := by
  have red : parseObjRest (f + 1) acc ('\n' :: (indentChars ind ++ rbrace :: rest)) =
      (match skipWs ('\n' :: (indentChars ind ++ rbrace :: rest)) with
        | [] => none
        | c :: rest' =>
          if c = rbrace then some (acc, rest')
          else if c = ',' then
            match skipWs rest' with
            | [] => none
            | d :: r2 =>
              if d = '"' then
                match parseStrBody r2 with
                | none => none
                | some (k, r3) =>
                  match skipWs r3 with
                  | [] => none
                  | e :: r4 =>
                    if e = ':' then
                      match parseVal f r4 with
                      | none => none
                      | some (v, r5) => parseObjRest f (acc.insert k v) r5
                    else none
              else none
          else none) := rfl
  rw [red, skipWs_nl_indent, skipWs_cons_of_not rbrace rest (by decide)]
  rfl

theorem numHead_facts (c : Char) (h : c = '-' ∨ isDigitCh c = true) :
    (¬ c = 'n') ∧ (¬ c = 't') ∧ (¬ c = 'f') ∧ (¬ c = '"') ∧ (¬ c = '[') ∧
      (¬ c = lbrace) ∧ ((c = '-' || isDigitCh c) = true) := by
  rcases h with h | h
  · subst h
    exact ⟨by decide, by decide, by decide, by decide, by decide, by decide, by decide⟩
  · have h10 : c.toNat - 48 < 10 ∧ c.toNat = (c.toNat - 48) + 48 := by
      simp only [isDigitCh, decide_eq_true_eq] at h
      omega
    have hc : c = Char.ofNat ((c.toNat - 48) + 48) := by rw [← h10.2, Char.ofNat_toNat]
    have hb := charDigit_branch (c.toNat - 48) h10.1
    rw [hc]
    refine ⟨hb.1, hb.2.1, hb.2.2.1, hb.2.2.2.1, hb.2.2.2.2.1, hb.2.2.2.2.2.1, ?_⟩
    simp [charDigit_isDigit (c.toNat - 48) h10.1]

/-! ## The serializer/parser round trip -/

mutual
theorem parseVal_serialize :
    ∀ (d : JValue) (fuel ind : Nat) (rest : List Char), d.wfB = true →
      d.needFuel ≤ fuel → noLeadingDigit rest = true →
      parseVal fuel (serializeVal ind d ++ rest) = some (d, rest)
  | .null, fuel, ind, rest, _, hfuel, _ => by
    cases fuel with
    | zero => have := needFuel_pos JValue.null; omega
    | succ f => rfl
  | .bool true, fuel, ind, rest, _, hfuel, _ => by
    cases fuel with
    | zero => have := needFuel_pos (JValue.bool true); omega
    | succ f => rfl
  | .bool false, fuel, ind, rest, _, hfuel, _ => by
    cases fuel with
    | zero => have := needFuel_pos (JValue.bool false); omega
    | succ f => rfl
  | .num n, fuel, ind, rest, _, hfuel, hrest => by
    cases fuel with
    | zero => have := needFuel_pos (JValue.num n); omega
    | succ f =>
      obtain ⟨c, cs, hcs, hws, _, _, hnum⟩ := intChars_head n
      obtain ⟨n1, n2, n3, n4, n5, n6, n7⟩ := numHead_facts c hnum
      show parseVal (f + 1) (intChars n ++ rest) = _
      rw [show intChars n ++ rest = c :: (cs ++ rest) from by rw [hcs]; rfl]
      rw [parseVal_num_dispatch f c (cs ++ rest) hws n1 n2 n3 n4 n5 n6 n7]
      rw [show c :: (cs ++ rest) = intChars n ++ rest from by rw [hcs]; rfl]
      rw [parseIntToken_intChars n rest hrest]
      rfl
  | .str s, fuel, ind, rest, _, hfuel, _ => by
    cases fuel with
    | zero => have := needFuel_pos (JValue.str s); omega
    | succ f =>
      show parseVal (f + 1) (quoteStr s ++ rest) = _
      rw [show quoteStr s ++ rest = '"' :: ((s.map escapeChar).flatten ++ '"' :: rest) from by
        simp [quoteStr]]
      have red : parseVal (f + 1) ('"' :: ((s.map escapeChar).flatten ++ '"' :: rest)) =
          (parseStrBody ((s.map escapeChar).flatten ++ '"' :: rest)).map
            (fun p => (JValue.str p.1, p.2)) := rfl
      rw [red, parseStrBody_roundtrip]
      rfl
  | .arr .nil, fuel, ind, rest, _, hfuel, _ => by
    cases fuel with
    | zero => have := needFuel_pos (JValue.arr .nil); omega
    | succ f => rfl
  | .arr (.cons v es), fuel, ind, rest, hwf, hfuel, hrest => by
    cases fuel with
    | zero => have := needFuel_pos (JValue.arr (.cons v es)); omega
    | succ f =>
      simp only [JValue.wfB, JElems.wfBE, Bool.and_eq_true] at hwf
      obtain ⟨hwv, hwes⟩ := hwf
      simp only [JValue.needFuel] at hfuel
      obtain ⟨c0, cs0, hcs, hws0, hne0, _⟩ := serializeVal_head v (ind + 1)
      show parseVal (f + 1) (serializeVal ind (.arr (.cons v es)) ++ rest) = _
      rw [show serializeVal ind (.arr (.cons v es)) ++ rest =
          '[' :: ('\n' :: (indentChars (ind + 1) ++ (serializeVal (ind + 1) v ++
            (serializeElems (ind + 1) es ++
              '\n' :: (indentChars ind ++ ']' :: rest))))) from by
        simp [serializeVal, List.append_assoc]]
      have hskip : skipWs ('\n' :: (indentChars (ind + 1) ++ (serializeVal (ind + 1) v ++
          (serializeElems (ind + 1) es ++ '\n' :: (indentChars ind ++ ']' :: rest))))) =
          c0 :: (cs0 ++ (serializeElems (ind + 1) es ++
            '\n' :: (indentChars ind ++ ']' :: rest))) := by
        rw [skipWs_nl_indent, hcs]
        exact skipWs_cons_of_not c0 _ hws0
      rw [parseVal_arr_step f _ c0 _ hskip hne0]
      rw [show c0 :: (cs0 ++ (serializeElems (ind + 1) es ++
          '\n' :: (indentChars ind ++ ']' :: rest))) =
          serializeVal (ind + 1) v ++ (serializeElems (ind + 1) es ++
            '\n' :: (indentChars ind ++ ']' :: rest)) from by rw [hcs]; rfl]
      rw [parseVal_serialize v f (ind + 1) _ hwv (by omega)
        (noLeadingDigit_serializeElems es (ind + 1) _)]
      show (match parseArrRest f (serializeElems (ind + 1) es ++
          '\n' :: (indentChars ind ++ ']' :: rest)) with
        | none => none
        | some (es', r4) => some (JValue.arr (.cons v es'), r4)) = _
      rw [parseArrRest_serialize es f ind rest hwes (by omega)]
  | .obj .nil, fuel, ind, rest, _, hfuel, _ => by
    cases fuel with
    | zero => have := needFuel_pos (JValue.obj .nil); omega
    | succ f => rfl
  | .obj (.cons k v ms), fuel, ind, rest, hwf, hfuel, hrest => by
    cases fuel with
    | zero => have := needFuel_pos (JValue.obj (.cons k v ms)); omega
    | succ f =>
      simp only [JValue.wfB, JMembers.wfBM, Bool.and_eq_true, Bool.not_eq_true'] at hwf
      obtain ⟨⟨hfreshk, hwv⟩, hwms⟩ := hwf
      simp only [JValue.needFuel] at hfuel
      show parseVal (f + 1) (serializeVal ind (.obj (.cons k v ms)) ++ rest) = _
      rw [show serializeVal ind (.obj (.cons k v ms)) ++ rest =
          lbrace :: ('\n' :: (indentChars (ind + 1) ++ ('"' :: ((k.map escapeChar).flatten ++
            '"' :: (':' :: ' ' :: (serializeVal (ind + 1) v ++ (serializeMembers (ind + 1) ms ++
              '\n' :: (indentChars ind ++ rbrace :: rest)))))))) from by
        simp [serializeVal, quoteStr, List.append_assoc]]
      have hskip : skipWs ('\n' :: (indentChars (ind + 1) ++ ('"' :: ((k.map escapeChar).flatten ++
          '"' :: (':' :: ' ' :: (serializeVal (ind + 1) v ++ (serializeMembers (ind + 1) ms ++
            '\n' :: (indentChars ind ++ rbrace :: rest)))))))) =
          '"' :: ((k.map escapeChar).flatten ++
            '"' :: (':' :: ' ' :: (serializeVal (ind + 1) v ++ (serializeMembers (ind + 1) ms ++
              '\n' :: (indentChars ind ++ rbrace :: rest))))) := by
        rw [skipWs_nl_indent]
        exact skipWs_cons_of_not '"' _ (by decide)
      rw [parseVal_obj_step f _ _ hskip]
      rw [parseStrBody_roundtrip k (':' :: ' ' :: (serializeVal (ind + 1) v ++
        (serializeMembers (ind + 1) ms ++ '\n' :: (indentChars ind ++ rbrace :: rest))))]
      show (match parseVal f (' ' :: (serializeVal (ind + 1) v ++ (serializeMembers (ind + 1) ms ++
          '\n' :: (indentChars ind ++ rbrace :: rest)))) with
        | none => none
        | some (v', r5) =>
          (parseObjRest f (JMembers.cons k v' .nil) r5).map
            (fun (p : JMembers × List Char) => (JValue.obj p.1, p.2))) = _
      rw [parseVal_congr f (' ' :: (serializeVal (ind + 1) v ++ (serializeMembers (ind + 1) ms ++
        '\n' :: (indentChars ind ++ rbrace :: rest))))
        (serializeVal (ind + 1) v ++ (serializeMembers (ind + 1) ms ++
          '\n' :: (indentChars ind ++ rbrace :: rest))) rfl]
      rw [parseVal_serialize v f (ind + 1) _ hwv (by omega)
        (noLeadingDigit_serializeMembers ms (ind + 1) _)]
      show (parseObjRest f (JMembers.cons k v .nil) (serializeMembers (ind + 1) ms ++
        '\n' :: (indentChars ind ++ rbrace :: rest))).map
          (fun (p : JMembers × List Char) => (JValue.obj p.1, p.2)) = _
      rw [parseObjRest_serialize ms (JMembers.cons k v .nil) f ind rest hwms (by omega)]
      rw [show JMembers.insertAll (JMembers.cons k v .nil) ms = JMembers.cons k v ms from
        JMembers.insertAll_head k v ms hfreshk hwms]
      rfl
theorem parseArrRest_serialize :
    ∀ (es : JElems) (fuel ind : Nat) (rest : List Char), es.wfBE = true →
      es.needFuelE ≤ fuel →
      parseArrRest fuel
        (serializeElems (ind + 1) es ++ '\n' :: (indentChars ind ++ ']' :: rest)) =
        some (es, rest)
  | .nil, fuel, ind, rest, _, hfuel => by
    cases fuel with
    | zero => have := needFuelE_pos JElems.nil; omega
    | succ f => exact parseArrRest_nil_step f ind rest
  | .cons v es, fuel, ind, rest, hwf, hfuel => by
    cases fuel with
    | zero => have := needFuelE_pos (JElems.cons v es); omega
    | succ f =>
      simp only [JElems.wfBE, Bool.and_eq_true] at hwf
      obtain ⟨hwv, hwes⟩ := hwf
      simp only [JElems.needFuelE] at hfuel
      show parseArrRest (f + 1)
        (serializeElems (ind + 1) (.cons v es) ++ '\n' :: (indentChars ind ++ ']' :: rest)) = _
      rw [show serializeElems (ind + 1) (.cons v es) ++
          '\n' :: (indentChars ind ++ ']' :: rest) =
          ',' :: ('\n' :: (indentChars (ind + 1) ++ (serializeVal (ind + 1) v ++
            (serializeElems (ind + 1) es ++
              '\n' :: (indentChars ind ++ ']' :: rest))))) from by
        simp [serializeElems, List.append_assoc]]
      have red : parseArrRest (f + 1) (',' :: ('\n' :: (indentChars (ind + 1) ++
          (serializeVal (ind + 1) v ++ (serializeElems (ind + 1) es ++
            '\n' :: (indentChars ind ++ ']' :: rest)))))) =
          (match parseVal f ('\n' :: (indentChars (ind + 1) ++
            (serializeVal (ind + 1) v ++ (serializeElems (ind + 1) es ++
              '\n' :: (indentChars ind ++ ']' :: rest))))) with
          | none => none
          | some (v', r2) =>
            match parseArrRest f r2 with
            | none => none
            | some (es', r3) => some (JElems.cons v' es', r3)) := rfl
      rw [red]
      rw [parseVal_congr f ('\n' :: (indentChars (ind + 1) ++
          (serializeVal (ind + 1) v ++ (serializeElems (ind + 1) es ++
            '\n' :: (indentChars ind ++ ']' :: rest)))))
        (serializeVal (ind + 1) v ++ (serializeElems (ind + 1) es ++
          '\n' :: (indentChars ind ++ ']' :: rest)))
        (skipWs_nl_indent (ind + 1) _)]
      rw [parseVal_serialize v f (ind + 1) _ hwv (by omega)
        (noLeadingDigit_serializeElems es (ind + 1) _)]
      show (match parseArrRest f (serializeElems (ind + 1) es ++
          '\n' :: (indentChars ind ++ ']' :: rest)) with
        | none => none
        | some (es', r3) => some (JElems.cons v es', r3)) = _
      rw [parseArrRest_serialize es f ind rest hwes (by omega)]
theorem parseObjRest_serialize :
    ∀ (ms acc : JMembers) (fuel ind : Nat) (rest : List Char), ms.wfBM = true →
      ms.needFuelM ≤ fuel →
      parseObjRest fuel acc
        (serializeMembers (ind + 1) ms ++ '\n' :: (indentChars ind ++ rbrace :: rest)) =
        some (JMembers.insertAll acc ms, rest)
  | .nil, acc, fuel, ind, rest, _, hfuel => by
    cases fuel with
    | zero => have := needFuelM_pos JMembers.nil; omega
    | succ f => exact parseObjRest_nil_step f acc ind rest
  | .cons k v ms, acc, fuel, ind, rest, hwf, hfuel => by
    cases fuel with
    | zero => have := needFuelM_pos (JMembers.cons k v ms); omega
    | succ f =>
      simp only [JMembers.wfBM, Bool.and_eq_true, Bool.not_eq_true'] at hwf
      obtain ⟨⟨hfreshk, hwv⟩, hwms⟩ := hwf
      simp only [JMembers.needFuelM] at hfuel
      show parseObjRest (f + 1) acc (serializeMembers (ind + 1) (.cons k v ms) ++
        '\n' :: (indentChars ind ++ rbrace :: rest)) = _
      rw [show serializeMembers (ind + 1) (.cons k v ms) ++
          '\n' :: (indentChars ind ++ rbrace :: rest) =
          ',' :: ('\n' :: (indentChars (ind + 1) ++ ('"' :: ((k.map escapeChar).flatten ++
            '"' :: (':' :: ' ' :: (serializeVal (ind + 1) v ++ (serializeMembers (ind + 1) ms ++
              '\n' :: (indentChars ind ++ rbrace :: rest)))))))) from by
        simp [serializeMembers, quoteStr, List.append_assoc]]
      have red : parseObjRest (f + 1) acc (',' :: ('\n' :: (indentChars (ind + 1) ++
          ('"' :: ((k.map escapeChar).flatten ++ '"' :: (':' :: ' ' ::
            (serializeVal (ind + 1) v ++ (serializeMembers (ind + 1) ms ++
              '\n' :: (indentChars ind ++ rbrace :: rest))))))))) =
          (match skipWs ('\n' :: (indentChars (ind + 1) ++
            ('"' :: ((k.map escapeChar).flatten ++ '"' :: (':' :: ' ' ::
              (serializeVal (ind + 1) v ++ (serializeMembers (ind + 1) ms ++
                '\n' :: (indentChars ind ++ rbrace :: rest)))))))) with
          | [] => none
          | d :: r2 =>
            if d = '"' then
              match parseStrBody r2 with
              | none => none
              | some (k', r3) =>
                match skipWs r3 with
                | [] => none
                | e :: r4 =>
                  if e = ':' then
                    match parseVal f r4 with
                    | none => none
                    | some (v', r5) => parseObjRest f (acc.insert k' v') r5
                  else none
            else none) := rfl
      rw [red]
      rw [show skipWs ('\n' :: (indentChars (ind + 1) ++
          ('"' :: ((k.map escapeChar).flatten ++ '"' :: (':' :: ' ' ::
            (serializeVal (ind + 1) v ++ (serializeMembers (ind + 1) ms ++
              '\n' :: (indentChars ind ++ rbrace :: rest)))))))) =
          '"' :: ((k.map escapeChar).flatten ++ '"' :: (':' :: ' ' ::
            (serializeVal (ind + 1) v ++ (serializeMembers (ind + 1) ms ++
              '\n' :: (indentChars ind ++ rbrace :: rest))))) from by
        rw [skipWs_nl_indent]
        exact skipWs_cons_of_not '"' _ (by decide)]
      show (match parseStrBody ((k.map escapeChar).flatten ++ '"' :: (':' :: ' ' ::
          (serializeVal (ind + 1) v ++ (serializeMembers (ind + 1) ms ++
            '\n' :: (indentChars ind ++ rbrace :: rest))))) with
        | none => none
        | some (k', r3) =>
          match skipWs r3 with
          | [] => none
          | e :: r4 =>
            if e = ':' then
              match parseVal f r4 with
              | none => none
              | some (v', r5) => parseObjRest f (acc.insert k' v') r5
            else none) = _
      rw [parseStrBody_roundtrip k (':' :: ' ' :: (serializeVal (ind + 1) v ++
        (serializeMembers (ind + 1) ms ++ '\n' :: (indentChars ind ++ rbrace :: rest))))]
      show (match parseVal f (' ' :: (serializeVal (ind + 1) v ++ (serializeMembers (ind + 1) ms ++
          '\n' :: (indentChars ind ++ rbrace :: rest)))) with
        | none => none
        | some (v', r5) => parseObjRest f (acc.insert k v') r5) = _
      rw [parseVal_congr f (' ' :: (serializeVal (ind + 1) v ++ (serializeMembers (ind + 1) ms ++
        '\n' :: (indentChars ind ++ rbrace :: rest))))
        (serializeVal (ind + 1) v ++ (serializeMembers (ind + 1) ms ++
          '\n' :: (indentChars ind ++ rbrace :: rest))) rfl]
      rw [parseVal_serialize v f (ind + 1) _ hwv (by omega)
        (noLeadingDigit_serializeMembers ms (ind + 1) _)]
      show parseObjRest f (acc.insert k v) (serializeMembers (ind + 1) ms ++
        '\n' :: (indentChars ind ++ rbrace :: rest)) = _
      rw [parseObjRest_serialize ms (acc.insert k v) f ind rest hwms (by omega)]
      rfl
end

/-- The `serde_json` round trip at the file level: pretty-printing a
well-formed document and appending the final newline parses back to the
same document. -/
theorem parseJson_serialize (j : JValue) (hwf : j.wfB = true) :
    parseJson (to_string_pretty j ++ [ '\n' ]) = some j := by
  have hlen := needFuel_le_len j 0
  show parseJson (serializeVal 0 j ++ [ '\n' ]) = some j
  have hfuel : j.needFuel ≤ (serializeVal 0 j ++ [ '\n' ]).length + 1 := by
    simp only [List.length_append, List.length_cons, List.length_nil]
    omega
  simp only [parseJson]
  rw [parseVal_serialize j ((serializeVal 0 j ++ [ '\n' ]).length + 1) 0 [ '\n' ] hwf hfuel rfl]
  rfl

theorem JMembers.hasKey_insert :
    ∀ (m : JMembers) (k : List Char) (v : JValue) (key : List Char),
      (m.insert k v).hasKey key = (m.hasKey key || decide (k = key))
  | .nil, k, v, key => by
    show JMembers.hasKey (.cons k v .nil) key = _
    by_cases h : k = key <;> simp [JMembers.hasKey, h]
  | .cons k' v' rest, k, v, key => by
    by_cases hk : k' = k
    · show JMembers.hasKey (if k' = k then _ else _) key = _
      rw [if_pos hk]
      subst hk
      by_cases h : k' = key <;> simp [JMembers.hasKey, h]
    · show JMembers.hasKey (if k' = k then _ else _) key = _
      rw [if_neg hk]
      show JMembers.hasKey (.cons k' v' (rest.insert k v)) key = _
      by_cases h : k' = key
      · simp [JMembers.hasKey, h]
      · simp only [JMembers.hasKey, if_neg h]
        exact JMembers.hasKey_insert rest k v key

theorem JMembers.insert_wf :
    ∀ (m : JMembers) (k : List Char) (v : JValue), m.wfBM = true → v.wfB = true →
      (m.insert k v).wfBM = true
  | .nil, k, v, _, hv => by
    show JMembers.wfBM (.cons k v .nil) = true
    simp [JMembers.wfBM, JMembers.hasKey, hv]
  | .cons k' v' rest, k, v, hm, hv => by
    simp only [JMembers.wfBM, Bool.and_eq_true, Bool.not_eq_true'] at hm
    obtain ⟨⟨hnk, hv'⟩, hrest⟩ := hm
    by_cases hk : k' = k
    · show JMembers.wfBM (if k' = k then _ else _) = true
      rw [if_pos hk]
      show JMembers.wfBM (.cons k' v rest) = true
      simp [JMembers.wfBM, hnk, hv, hrest]
    · show JMembers.wfBM (if k' = k then _ else _) = true
      rw [if_neg hk]
      show JMembers.wfBM (.cons k' v' (rest.insert k v)) = true
      have h1 : (rest.insert k v).hasKey k' = false := by
        rw [JMembers.hasKey_insert, hnk]
        simp
        intro heq
        exact hk heq.symm
      simp [JMembers.wfBM, h1, hv', JMembers.insert_wf rest k v hrest hv]

/-! ## Every parsed document is well-formed (objects have distinct keys) -/

mutual
theorem parseVal_wf :
    ∀ (fuel : Nat) (cs : List Char) (v : JValue) (r : List Char),
      parseVal fuel cs = some (v, r) → v.wfB = true
  | 0, _, _, _, h => by simp [parseVal] at h
  | fuel + 1, cs, v, r, h => by
    cases hskip : skipWs cs with
    | nil => simp only [parseVal, hskip] at h; cases h
    | cons c rest =>
      simp only [parseVal, hskip] at h
      by_cases h1 : c = 'n'
      · rw [if_pos h1] at h
        split at h
        · cases h; rfl
        · cases h
      · rw [if_neg h1] at h
        by_cases h2 : c = 't'
        · rw [if_pos h2] at h
          split at h
          · cases h; rfl
          · cases h
        · rw [if_neg h2] at h
          by_cases h3 : c = 'f'
          · rw [if_pos h3] at h
            split at h
            · cases h; rfl
            · cases h
          · rw [if_neg h3] at h
            by_cases h4 : c = '"'
            · rw [if_pos h4] at h
              cases hs : parseStrBody rest with
              | none => rw [hs] at h; cases h
              | some p =>
                rw [hs] at h
                cases h
                rfl
            · rw [if_neg h4] at h
              by_cases h5 : c = '['
              · rw [if_pos h5] at h
                cases hskip2 : skipWs rest with
                | nil => rw [hskip2] at h; cases h
                | cons d r2 =>
                  simp only [hskip2] at h
                  by_cases hd : d = ']'
                  · rw [if_pos hd] at h
                    cases h
                    rfl
                  · rw [if_neg hd] at h
                    cases hv1 : parseVal fuel (d :: r2) with
                    | none => rw [hv1] at h; cases h
                    | some p =>
                      obtain ⟨v1, r3⟩ := p
                      simp only [hv1] at h
                      cases hv2 : parseArrRest fuel r3 with
                      | none => rw [hv2] at h; cases h
                      | some q =>
                        obtain ⟨es, r4⟩ := q
                        simp only [hv2] at h
                        cases h
                        have hw1 := parseVal_wf fuel (d :: r2) v1 _ hv1
                        have hw2 := parseArrRest_wf fuel r3 es _ hv2
                        simp [JValue.wfB, JElems.wfBE, hw1, hw2]
              · rw [if_neg h5] at h
                by_cases h6 : c = lbrace
                · rw [if_pos h6] at h
                  cases hskip2 : skipWs rest with
                  | nil => rw [hskip2] at h; cases h
                  | cons d r2 =>
                    simp only [hskip2] at h
                    by_cases hd : d = rbrace
                    · rw [if_pos hd] at h
                      cases h
                      rfl
                    · rw [if_neg hd] at h
                      by_cases hd2 : d = '"'
                      · rw [if_pos hd2] at h
                        cases hs : parseStrBody r2 with
                        | none => rw [hs] at h; cases h
                        | some p =>
                          obtain ⟨k, r3⟩ := p
                          simp only [hs] at h
                          cases hskip3 : skipWs r3 with
                          | nil => rw [hskip3] at h; cases h
                          | cons e r4 =>
                            simp only [hskip3] at h
                            by_cases he : e = ':'
                            · rw [if_pos he] at h
                              cases hv1 : parseVal fuel r4 with
                              | none => rw [hv1] at h; cases h
                              | some p2 =>
                                obtain ⟨v1, r5⟩ := p2
                                simp only [hv1] at h
                                cases ho : parseObjRest fuel (JMembers.cons k v1 .nil) r5 with
                                | none => rw [ho] at h; cases h
                                | some q =>
                                  obtain ⟨ms, r6⟩ := q
                                  simp only [ho] at h
                                  cases h
                                  have hw1 := parseVal_wf fuel r4 v1 r5 hv1
                                  have hacc : (JMembers.cons k v1 .nil).wfBM = true := by
                                    simp [JMembers.wfBM, JMembers.hasKey, hw1]
                                  exact parseObjRest_wf fuel (JMembers.cons k v1 .nil) r5 ms r6 ho hacc
                            · rw [if_neg he] at h; cases h
                      · rw [if_neg hd2] at h; cases h
                · rw [if_neg h6] at h
                  split at h
                  · cases hp : parseIntToken (c :: rest) with
                    | none => rw [hp] at h; cases h
                    | some p =>
                      rw [hp] at h
                      cases h
                      rfl
                  · cases h
theorem parseArrRest_wf :
    ∀ (fuel : Nat) (cs : List Char) (es : JElems) (r : List Char),
      parseArrRest fuel cs = some (es, r) → es.wfBE = true
  | 0, _, _, _, h => by simp [parseArrRest] at h
  | fuel + 1, cs, es, r, h => by
    cases hskip : skipWs cs with
    | nil => simp only [parseArrRest, hskip] at h; cases h
    | cons c rest =>
      simp only [parseArrRest, hskip] at h
      by_cases h1 : c = ']'
      · rw [if_pos h1] at h
        cases h
        rfl
      · rw [if_neg h1] at h
        by_cases h2 : c = ','
        · rw [if_pos h2] at h
          cases hv1 : parseVal fuel rest with
          | none => rw [hv1] at h; cases h
          | some p =>
            obtain ⟨v1, r2⟩ := p
            simp only [hv1] at h
            cases hv2 : parseArrRest fuel r2 with
            | none => rw [hv2] at h; cases h
            | some q =>
              obtain ⟨es2, r3⟩ := q
              simp only [hv2] at h
              cases h
              have hw1 := parseVal_wf fuel rest v1 _ hv1
              have hw2 := parseArrRest_wf fuel r2 es2 _ hv2
              simp [JElems.wfBE, hw1, hw2]
        · rw [if_neg h2] at h; cases h
theorem parseObjRest_wf :
    ∀ (fuel : Nat) (acc : JMembers) (cs : List Char) (ms : JMembers) (r : List Char),
      parseObjRest fuel acc cs = some (ms, r) → acc.wfBM = true → ms.wfBM = true
  | 0, _, _, _, _, h => by simp [parseObjRest] at h
  | fuel + 1, acc, cs, ms, r, h => by
    intro hacc
    cases hskip : skipWs cs with
    | nil => simp only [parseObjRest, hskip] at h; cases h
    | cons c rest =>
      simp only [parseObjRest, hskip] at h
      by_cases h1 : c = rbrace
      · rw [if_pos h1] at h
        cases h
        exact hacc
      · rw [if_neg h1] at h
        by_cases h2 : c = ','
        · rw [if_pos h2] at h
          cases hskip2 : skipWs rest with
          | nil => rw [hskip2] at h; cases h
          | cons d r2 =>
            simp only [hskip2] at h
            by_cases hd : d = '"'
            · rw [if_pos hd] at h
              cases hs : parseStrBody r2 with
              | none => rw [hs] at h; cases h
              | some p =>
                obtain ⟨k, r3⟩ := p
                simp only [hs] at h
                cases hskip3 : skipWs r3 with
                | nil => rw [hskip3] at h; cases h
                | cons e r4 =>
                  simp only [hskip3] at h
                  by_cases he : e = ':'
                  · rw [if_pos he] at h
                    cases hv1 : parseVal fuel r4 with
                    | none => rw [hv1] at h; cases h
                    | some p2 =>
                      obtain ⟨v1, r5⟩ := p2
                      simp only [hv1] at h
                      have hw1 := parseVal_wf fuel r4 v1 r5 hv1
                      exact parseObjRest_wf fuel (acc.insert k v1) r5 ms r h
                        (JMembers.insert_wf acc k v1 hacc hw1)
                  · rw [if_neg he] at h; cases h
            · rw [if_neg hd] at h; cases h
        · rw [if_neg h2] at h; cases h
end

/-! ## Query lemmas for `insert` -/

theorem JMembers.get?_insert_self :
    ∀ (m : JMembers) (k : List Char) (v : JValue), (m.insert k v).get? k = some v
  | .nil, k, v => by simp [JMembers.insert, JMembers.get?]
  | .cons k' v' rest, k, v => by
    by_cases hk : k' = k
    · simp [JMembers.insert, JMembers.get?, hk]
    · simp only [JMembers.insert, if_neg hk]
      show JMembers.get? (.cons k' v' (rest.insert k v)) k = _
      simp only [JMembers.get?, if_neg hk]
      exact JMembers.get?_insert_self rest k v

theorem JMembers.get?_insert_ne :
    ∀ (m : JMembers) (k : List Char) (v : JValue) (key : List Char), ¬ k = key →
      (m.insert k v).get? key = m.get? key
  | .nil, k, v, key, h => by simp [JMembers.insert, JMembers.get?, h]
  | .cons k' v' rest, k, v, key, h => by
    by_cases hk : k' = k
    · simp only [JMembers.insert, if_pos hk]
      have h2 : ¬ k' = key := by rw [hk]; exact h
      simp [JMembers.get?, h2]
    · simp only [JMembers.insert, if_neg hk]
      show JMembers.get? (.cons k' v' (rest.insert k v)) key = _
      by_cases h2 : k' = key
      · simp [JMembers.get?, h2]
      · simp only [JMembers.get?, if_neg h2]
        exact JMembers.get?_insert_ne rest k v key h

theorem JMembers.keys_insert :
    ∀ (m : JMembers) (k : List Char) (v : JValue),
      (m.insert k v).keys = if m.hasKey k then m.keys else m.keys ++ [k]
  | .nil, k, v => by simp [JMembers.insert, JMembers.keys, JMembers.hasKey]
  | .cons k' v' rest, k, v => by
    by_cases hk : k' = k
    · simp [JMembers.insert, JMembers.keys, JMembers.hasKey, hk]
    · simp only [JMembers.insert, if_neg hk, JMembers.hasKey]
      show JMembers.keys (.cons k' v' (rest.insert k v)) = _
      simp only [JMembers.keys]
      rw [JMembers.keys_insert rest k v]
      by_cases h2 : rest.hasKey k
      · simp [h2, if_neg hk]
      · simp [h2, if_neg hk]

theorem JMembers.keys_filter_insert (m : JMembers) (k : List Char) (v : JValue) :
    ((m.insert k v).keys).filter (fun key => key ≠ k) =
      (m.keys).filter (fun key => key ≠ k) := by
  rw [JMembers.keys_insert]
  by_cases h : m.hasKey k
  · rw [if_pos h]
  · rw [if_neg h, List.filter_append]
    simp

theorem parseJson_wf (cs : List Char) (j : JValue) (h : parseJson cs = some j) :
    j.wfB = true := by
  simp only [parseJson] at h
  cases hv : parseVal (cs.length + 1) cs with
  | none => rw [hv] at h; cases h
  | some p =>
    obtain ⟨v', r⟩ := p
    simp only [hv] at h
    by_cases hr : skipWs r = []
    · rw [if_pos hr] at h
      cases h
      exact parseVal_wf _ _ _ _ hv
    · rw [if_neg hr] at h
      cases h

theorem JMembers.insert_insert :
    ∀ (m : JMembers) (k : List Char) (v : JValue),
      (m.insert k v).insert k v = m.insert k v
  | .nil, k, v => by simp [JMembers.insert]
  | .cons k' v' rest, k, v => by
    by_cases hk : k' = k
    · simp [JMembers.insert, hk]
    · simp only [JMembers.insert, if_neg hk]
      rw [JMembers.insert_insert rest k v]

/-! ## Claims C5-C7 and C10: the manifest synchronizer -/

/-- C5: on success, the written manifest parses back as an object whose
`"version"` key holds exactly the dotted rendering of `v`, while every
other key keeps its prior value and the relative order of the other keys
is unchanged (and if `"version"` already existed, the key list is
completely unchanged). -/
theorem c5_manifest_frame (v : Version) (w : FsWorld) (content : List Char) (kvs : JMembers)
    (hread : w.readRes = some content)
    (hparse : parseJson content = some (.obj kvs))
    (hwrite : w.writeOk = true) :
    ∃ kvs2,
      npm_version v w = .ok (to_string_pretty (.obj kvs2) ++ [ '\n' ]) ∧
      parseJson (to_string_pretty (.obj kvs2) ++ [ '\n' ]) = some (.obj kvs2) ∧
      kvs2.get? versionKey = some (.str (Version.display v)) ∧
      (∀ key, ¬ key = versionKey → kvs2.get? key = kvs.get? key) ∧
      (kvs2.keys).filter (fun key => key ≠ versionKey) =
        (kvs.keys).filter (fun key => key ≠ versionKey) ∧
      (kvs.hasKey versionKey = true → kvs2.keys = kvs.keys) := by
  have hwfp : kvs.wfBM = true := by
    have := parseJson_wf content (.obj kvs) hparse
    simpa [JValue.wfB] using this
  have hwf2 : (JValue.obj (kvs.insert versionKey (.str (Version.display v)))).wfB = true := by
    show (kvs.insert versionKey (.str (Version.display v))).wfBM = true
    exact JMembers.insert_wf kvs versionKey _ hwfp rfl
  refine ⟨kvs.insert versionKey (.str (Version.display v)), ?_, ?_, ?_, ?_, ?_, ?_⟩
  · simp only [npm_version, hread, hparse, hwrite, if_true]
  · exact parseJson_serialize _ hwf2
  · exact JMembers.get?_insert_self kvs versionKey _
  · intro key hne
    exact JMembers.get?_insert_ne kvs versionKey _ key (fun h => hne h.symm)
  · exact JMembers.keys_filter_insert kvs versionKey _
  · intro hhas
    rw [JMembers.keys_insert, if_pos hhas]

/-- C5 (witness): the empty manifest object, synchronized to `1.2.3`. -/
theorem c5_manifest_frame_witness :
    ∃ kvs2,
      npm_version ⟨1, 2, 3⟩ ⟨some [lbrace, rbrace], true⟩ =
        .ok (to_string_pretty (.obj kvs2) ++ [ '\n' ]) ∧
      parseJson (to_string_pretty (.obj kvs2) ++ [ '\n' ]) = some (.obj kvs2) ∧
      kvs2.get? versionKey = some (.str (Version.display ⟨1, 2, 3⟩)) ∧
      (∀ key, ¬ key = versionKey → kvs2.get? key = JMembers.nil.get? key) ∧
      (kvs2.keys).filter (fun key => key ≠ versionKey) =
        (JMembers.nil.keys).filter (fun key => key ≠ versionKey) ∧
      (JMembers.nil.hasKey versionKey = true → kvs2.keys = JMembers.nil.keys) :=
  c5_manifest_frame ⟨1, 2, 3⟩ ⟨some [lbrace, rbrace], true⟩ [lbrace, rbrace] .nil rfl rfl rfl

/-- C6: synchronizing twice to the same version is idempotent — the
second run rewrites the file with byte-identical contents. -/
theorem c6_idempotent (v : Version) (w : FsWorld) (content : List Char) (kvs : JMembers)
    (hread : w.readRes = some content)
    (hparse : parseJson content = some (.obj kvs))
    (hwrite : w.writeOk = true) :
    ∃ out, npm_version v w = .ok out ∧
      npm_version v ⟨some out, true⟩ = .ok out := by
  have hwfp : kvs.wfBM = true := by
    have := parseJson_wf content (.obj kvs) hparse
    simpa [JValue.wfB] using this
  have hwf2 : (JValue.obj (kvs.insert versionKey (.str (Version.display v)))).wfB = true := by
    show (kvs.insert versionKey (.str (Version.display v))).wfBM = true
    exact JMembers.insert_wf kvs versionKey _ hwfp rfl
  refine ⟨to_string_pretty (.obj (kvs.insert versionKey (.str (Version.display v)))) ++ [ '\n' ],
    ?_, ?_⟩
  · simp only [npm_version, hread, hparse, hwrite, if_true]
  · have hrt := parseJson_serialize _ hwf2
    simp only [npm_version, hrt, if_true]
    rw [JMembers.insert_insert kvs versionKey (.str (Version.display v))]

/-- C6 (witness): idempotence at the empty manifest object and `1.2.3`. -/
theorem c6_idempotent_witness :
    ∃ out, npm_version ⟨1, 2, 3⟩ ⟨some [lbrace, rbrace], true⟩ = .ok out ∧
      npm_version ⟨1, 2, 3⟩ ⟨some out, true⟩ = .ok out :=
  c6_idempotent ⟨1, 2, 3⟩ ⟨some [lbrace, rbrace], true⟩ [lbrace, rbrace] .nil rfl rfl rfl

/-- C7 (counterexample): a parse failure is reported as
`"Failed to parse package.json"` — the offending path appears, but the
version being applied (`1.2.3`) appears nowhere in the message. -/
theorem c7_version_in_error_counterexample :
    npm_version ⟨1, 2, 3⟩ ⟨some "not json".data, true⟩ =
        .error "Failed to parse package.json" ∧
      strContains "Failed to parse package.json".data "1.2.3".data = false ∧
      strContains "Failed to parse package.json".data "package.json".data = true := by
  exact ⟨by decide, by decide, by decide⟩

/-- C7 (amended): every `npm_version` failure — read, parse or write —
is reported with a message containing the offending manifest path
`package.json` (but not the version being applied). -/
theorem c7_error_contains_path (v : Version) (w : FsWorld) (msg : String)
    (h : npm_version v w = .error msg) :
    strContains msg.data "package.json".data = true := by
  cases hr : w.readRes with
  | none =>
    simp only [npm_version, hr] at h
    cases h
    decide
  | some content =>
    simp only [npm_version, hr] at h
    cases hp : parseJson content with
    | none =>
      rw [hp] at h
      cases h
      decide
    | some j =>
      rw [hp] at h
      cases hw : w.writeOk with
      | true =>
        simp only [hw] at h
        rw [if_pos trivial] at h
        cases h
      | false =>
        simp only [hw] at h
        rw [if_neg (by simp : ¬ (false = true))] at h
        cases h
        decide

/-- C7 (witness for the amended theorem): the read-failure message
contains the path. -/
theorem c7_error_contains_path_witness :
    strContains "Failed to read package.json".data "package.json".data = true :=
  c7_error_contains_path ⟨0, 0, 0⟩ ⟨none, true⟩ "Failed to read package.json" rfl

/-- C10: with no parseable semantic version (`SEMVER` is `None`), the
binary substitutes `Version::default()` — `0.0.0` — and the manifest's
`"version"` key is synchronized to exactly `"0.0.0"`; the run succeeds. -/
theorem c10_default_version (w : FsWorld) (content : List Char) (kvs : JMembers)
    (hread : w.readRes = some content)
    (hparse : parseJson content = some (.obj kvs))
    (hwrite : w.writeOk = true) :
    npm_version_main none w = npm_version ⟨0, 0, 0⟩ w ∧
      Version.display ⟨0, 0, 0⟩ = "0.0.0".data ∧
      ∃ out kvs2, npm_version_main none w = .ok out ∧
        parseJson out = some (.obj kvs2) ∧
        kvs2.get? versionKey = some (.str "0.0.0".data) := by
  refine ⟨rfl, by decide, ?_⟩
  have hwfp : kvs.wfBM = true := by
    have := parseJson_wf content (.obj kvs) hparse
    simpa [JValue.wfB] using this
  have hwf2 : (JValue.obj (kvs.insert versionKey (.str (Version.display ⟨0, 0, 0⟩)))).wfB = true := by
    show (kvs.insert versionKey (.str (Version.display ⟨0, 0, 0⟩))).wfBM = true
    exact JMembers.insert_wf kvs versionKey _ hwfp rfl
  refine ⟨to_string_pretty (.obj (kvs.insert versionKey (.str (Version.display ⟨0, 0, 0⟩)))) ++
    [ '\n' ], kvs.insert versionKey (.str (Version.display ⟨0, 0, 0⟩)), ?_, ?_, ?_⟩
  · simp only [npm_version_main, Option.getD, npm_version, hread, hparse, hwrite, if_true]
  · exact parseJson_serialize _ hwf2
  · rw [show ("0.0.0".data : List Char) = Version.display ⟨0, 0, 0⟩ from by decide]
    exact JMembers.get?_insert_self kvs versionKey _

/-- C10 (witness): the empty manifest object, with no semantic version. -/
theorem c10_default_version_witness :
    npm_version_main none ⟨some [lbrace, rbrace], true⟩ =
        npm_version ⟨0, 0, 0⟩ ⟨some [lbrace, rbrace], true⟩ ∧
      Version.display ⟨0, 0, 0⟩ = "0.0.0".data ∧
      ∃ out kvs2, npm_version_main none ⟨some [lbrace, rbrace], true⟩ = .ok out ∧
        parseJson out = some (.obj kvs2) ∧
        kvs2.get? versionKey = some (.str "0.0.0".data) :=
  c10_default_version ⟨some [lbrace, rbrace], true⟩ [lbrace, rbrace] .nil rfl rfl rfl

/-! ## Claims C8 and C9: the Windows resource embedder -/

theorem version_hex_eq (v : Version) :
    version_hex v =
      ((v.major <<< 48) ||| (v.minor <<< 32) ||| (v.patch <<< 16)) % U64 := by
  have h64 : U64 = 2 ^ 64 := rfl
  rw [version_hex, h64]
  apply Nat.eq_of_testBit_eq
  intro i
  simp only [Nat.testBit_lor, Nat.testBit_mod_two_pow]
  by_cases hi : i < 64 <;> simp [hi]

/-- C8: on the MSVC target with `CARGO_PKG_NAME` available and a
successful resource compilation, `cdylib_win_rc` builds and compiles the
resource whose `FILEVERSION` and `PRODUCTVERSION` numeric fields are the
packed value `((major << 48) | (minor << 32) | (patch << 16)) mod 2^64`,
and whose `"FileVersion"` and `"ProductVersion"` string fields are
exactly `"{major}.{minor}.{patch}.0"`. -/
theorem c8_resource_version_fields (env : BuildEnv) (nm product filename : List Char)
    (v : Version) (hmsvc : env.msvc = true) (hname : env.cargoPkgName = some nm)
    (hok : env.compileOk = true) :
    cdylib_win_rc env product v filename =
        .ok (some (buildWinResource nm env.currentYear product v filename)) ∧
      lookupAssoc (buildWinResource nm env.currentYear product v filename).versionInfo
          .FILEVERSION =
        some (((v.major <<< 48) ||| (v.minor <<< 32) ||| (v.patch <<< 16)) % U64) ∧
      lookupAssoc (buildWinResource nm env.currentYear product v filename).versionInfo
          .PRODUCTVERSION =
        some (((v.major <<< 48) ||| (v.minor <<< 32) ||| (v.patch <<< 16)) % U64) ∧
      lookupAssoc (buildWinResource nm env.currentYear product v filename).strings
          "FileVersion".data =
        some (Version.display v ++ [ '.', '0' ]) ∧
      lookupAssoc (buildWinResource nm env.currentYear product v filename).strings
          "ProductVersion".data =
        some (Version.display v ++ [ '.', '0' ]) := by
  refine ⟨?_, ?_, ?_, ?_, ?_⟩
  · simp only [cdylib_win_rc, hmsvc, hname, hok]
    rfl
  · rw [show lookupAssoc (buildWinResource nm env.currentYear product v filename).versionInfo
        VIKey.FILEVERSION = some (version_hex v) from rfl, version_hex_eq]
  · rw [show lookupAssoc (buildWinResource nm env.currentYear product v filename).versionInfo
        VIKey.PRODUCTVERSION = some (version_hex v) from rfl, version_hex_eq]
  · rfl
  · rfl

/-- C8 (witness): the concrete build at version `1.2.3`. -/
theorem c8_resource_version_fields_witness :
    cdylib_win_rc ⟨true, some "meta".data, 2026, true⟩ "node_reqwest".data ⟨1, 2, 3⟩
          "node_reqwest.dll".data =
        .ok (some (buildWinResource "meta".data 2026 "node_reqwest".data ⟨1, 2, 3⟩
          "node_reqwest.dll".data)) ∧
      lookupAssoc (buildWinResource "meta".data 2026 "node_reqwest".data ⟨1, 2, 3⟩
          "node_reqwest.dll".data).versionInfo .FILEVERSION =
        some (((1 <<< 48) ||| (2 <<< 32) ||| (3 <<< 16)) % U64) ∧
      lookupAssoc (buildWinResource "meta".data 2026 "node_reqwest".data ⟨1, 2, 3⟩
          "node_reqwest.dll".data).versionInfo .PRODUCTVERSION =
        some (((1 <<< 48) ||| (2 <<< 32) ||| (3 <<< 16)) % U64) ∧
      lookupAssoc (buildWinResource "meta".data 2026 "node_reqwest".data ⟨1, 2, 3⟩
          "node_reqwest.dll".data).strings "FileVersion".data =
        some (Version.display ⟨1, 2, 3⟩ ++ [ '.', '0' ]) ∧
      lookupAssoc (buildWinResource "meta".data 2026 "node_reqwest".data ⟨1, 2, 3⟩
          "node_reqwest.dll".data).strings "ProductVersion".data =
        some (Version.display ⟨1, 2, 3⟩ ++ [ '.', '0' ]) :=
  c8_resource_version_fields ⟨true, some "meta".data, 2026, true⟩ "meta".data
    "node_reqwest".data "node_reqwest.dll".data ⟨1, 2, 3⟩ rfl rfl rfl

/-- C9: off the MSVC target, `cdylib_win_rc` returns success for every
product, version and filename, regardless of the rest of the environment
(`CARGO_PKG_NAME`, compile outcome), building no resource at all. -/
theorem c9_non_msvc_noop (env : BuildEnv) (product : List Char) (v : Version)
    (filename : List Char) (h : env.msvc = false) :
    cdylib_win_rc env product v filename = .ok none := by
  simp [cdylib_win_rc, h]

/-- C9 (witness): a non-MSVC environment with no package name and a
failing compiler still yields success with no resource. -/
theorem c9_non_msvc_noop_witness :
    cdylib_win_rc ⟨false, none, 0, false⟩ "node_reqwest".data ⟨1, 2, 3⟩
      "node_reqwest.dll".data = .ok none :=
  c9_non_msvc_noop ⟨false, none, 0, false⟩ "node_reqwest".data ⟨1, 2, 3⟩
    "node_reqwest.dll".data rfl
